import Mathlib

set_option maxHeartbeats 1000000
set_option maxRecDepth 4000

/-!
Shallow embedding of the noetherpy group-element core
(`src/group_theory/base/group_elements.py`) and of the statistical
invariant `equal_order_probability`
(`src/noetherpy/group_theory/statistical_group_theory/invariants.py`),
together with theorems settling the frozen claims about it.

Modelling conventions:
* Python `dict[int, int]` values are association lists (`Dict`) with the
  dict's insertion order; `dictGet` is subscript lookup (`none` = KeyError),
  `dictInsert` is `d[k] = v` (updates in place, appends when fresh),
  `pyDictEq` is Python `==` on dicts (order-independent mapping equality).
* CPython iterates a `set` of small distinct non-negative ints in ascending
  numeric order (hash(i) = i, open addressing with distinct slots), so
  `set(...)` iteration is modelled by `pySetList` (dedup then sort).
* Raising an exception is modelled by `Option`/`Except PyError`; a Python
  `while` loop that can diverge on malformed input gets explicit fuel that
  is provably sufficient on the inputs the claims quantify over
  (fuel exhaustion maps to `none`, like divergence/KeyError).
* Python integers are `Int` (with `%` = `Int.emod`, which agrees with
  Python `%` on positive moduli); letters of permutations are `Nat`.
-/

namespace Noether

/-- Kinds of Python exceptions raised by the modelled code. -/
inductive PyError where
  | typeError
  | valueError
  | keyError
  | assertionError
deriving DecidableEq

/-- A Python `dict[int, int]`: key/value pairs in insertion order. -/
abbrev Dict := List (Nat × Nat)

/-- Python `d[k]` for reading: the value at the first (unique, for genuine
dicts) occurrence of key `k`, `none` for a KeyError. -/
def dictGet (d : Dict) (k : Nat) : Option Nat :=
  (d.find? (fun q => q.1 == k)).map (fun q => q.2)

/-- Python `d.keys()` in insertion order. -/
def dictKeys (d : Dict) : List Nat := d.map (fun q => q.1)

/-- Python `d.values()` in insertion order. -/
def dictValues (d : Dict) : List Nat := d.map (fun q => q.2)

/-- Python `k in d`. -/
def dictHasKey (d : Dict) (k : Nat) : Bool := d.any (fun q => q.1 == k)

/-- Python `d[k] = v`: overwrite in place when the key exists, append
otherwise. -/
def dictInsert (d : Dict) (k v : Nat) : Dict :=
  if dictHasKey d k then d.map (fun q => if q.1 == k then (k, v) else q)
  else d ++ [(k, v)]

/-- A Python dict comprehension / `dict(pairs)`: insert the pairs left to
right (later pairs with a duplicate key overwrite in place). -/
def dictOfPairs (l : List (Nat × Nat)) : Dict :=
  l.foldl (fun d q => dictInsert d q.1 q.2) []

/-- Python `==` on dicts: equality as key-to-value mappings, independent of
insertion order. -/
def pyDictEq (d e : Dict) : Bool :=
  (d.all (fun q => dictGet e q.1 == some q.2)) &&
  (e.all (fun q => dictGet d q.1 == some q.2))

/-- CPython iteration order of `set(l)` for small distinct non-negative
ints: deduplicate, then ascending numeric order. -/
def pySetList (l : List Nat) : List Nat :=
  List.insertionSort (fun a b => a ≤ b) l.dedup

/-- Python `~` (bitwise complement) applied to a `bool`: `~True = -2`,
`~False = -1`, an `int`, never a `bool`. -/
def pyBitwiseNot (b : Bool) : Int := if b then -2 else -1

/-- Calling a bound method whose underlying function takes exactly one
argument besides `self`: Python raises `TypeError` when the explicit
argument list has any other length. -/
def callBoundMethod1 {α β : Type} (f : α → α → β) (self : α)
    (args : List α) : Except PyError β :=
  match args with
  | [x] => .ok (f self x)
  | _ => .error .typeError

/-! ### Permutation (`class Permutation`, group_elements.py lines 17-155) -/

/-- `Permutation`: wraps the stored mapping dict. `num_letters` is derived
as the dict's size (`Permutation.numLetters`). -/
structure Permutation where
  permutation : Dict
deriving DecidableEq

/-- `Permutation.__init__`: stores the mapping as given; it performs NO
validation (it never calls `validate_permutation`). -/
def Permutation.init (d : Dict) : Permutation := ⟨d⟩

/-- `self.num_letters = len(self.permutation)`. -/
def Permutation.numLetters (p : Permutation) : Nat := p.permutation.length

/-- `Permutation.__eq__`: `self.permutation == other.permutation`. -/
def Permutation.pyEqB (a b : Permutation) : Bool :=
  pyDictEq a.permutation b.permutation

/-- `Permutation.__ne__`: `return ~self.__eq__(self,other)` — the bound
call `self.__eq__(self, other)` passes two explicit arguments to a method
taking one, so Python raises `TypeError` before `~` is ever applied. -/
def Permutation.pyNe (a b : Permutation) : Except PyError Int :=
  (callBoundMethod1 Permutation.pyEqB a [a, b]).map pyBitwiseNot

/-- The inline identity dict `{i:i for i in range(1,n+1)}` built by
`__pow__` (N = 0) and `is_identity`. -/
def Permutation.identity (n : Nat) : Permutation :=
  ⟨(List.range' 1 n).map (fun i => (i, i))⟩

/-- `Permutation.is_identity`:
`self.permutation == {i:i for i in range(1,self.num_letters+1)}`. -/
def Permutation.is_identity (p : Permutation) : Bool :=
  pyDictEq p.permutation (Permutation.identity p.numLetters).permutation

/-- `Permutation.__mul__`:
`{i:self.permutation[other.permutation[i]] for i in range(1,self.num_letters+1)}`;
`none` models the KeyError on a missing key. -/
def Permutation.mul (a b : Permutation) : Option Permutation := do
  let pairs ← (List.range' 1 a.numLetters).mapM (fun i => do
    let j ← dictGet b.permutation i
    let v ← dictGet a.permutation j
    pure (i, v))
  pure ⟨pairs⟩

/-- `Permutation.__invert__`:
`{self.permutation[k]:k for k in self.permutation.keys()}`. -/
def Permutation.inv (p : Permutation) : Permutation :=
  ⟨dictOfPairs (p.permutation.map (fun q => (q.2, q.1)))⟩

/-- `reduce(lambda x,y: x*y, [step]*(k+1))` with accumulator `acc` after
the first list element: `k` further right-multiplications by `step`. -/
def Permutation.powAux (acc step : Permutation) : Nat → Option Permutation
  | 0 => some acc
  | k+1 => do Permutation.powAux (← Permutation.mul acc step) step k

/-- `Permutation.__pow__`. -/
def Permutation.pow (p : Permutation) (N : Int) : Option Permutation :=
  if N = 0 then some (Permutation.identity p.numLetters)
  else if 0 < N then Permutation.powAux p p (N.toNat - 1)
  else Permutation.powAux (Permutation.inv p) (Permutation.inv p) (N.natAbs - 1)

/-- The `while` loop of `find_cycle_dict`: follow images until the image is
`start` again, recording `cycle[current] = perm[current]` at each step
(including the closing step). Fuel bounds the loop; Python diverges on
mappings whose trail never returns to `start` (`none`). -/
def findCycleAux (perm : Dict) (start : Nat) :
    Nat → Dict → Nat → Option Dict
  | _, _, 0 => none
  | current, cycle, fuel+1 =>
    match dictGet perm current with
    | none => none
    | some v =>
      if v == start then some (dictInsert cycle current v)
      else findCycleAux perm start v (dictInsert cycle current v) fuel

/-- `Permutation.find_cycle_dict`. A valid permutation's cycle through
`start` has length at most `num_letters`, so `num_letters + 1` fuel always
suffices there. -/
def Permutation.find_cycle_dict (p : Permutation) (start : Nat) : Option Dict :=
  findCycleAux p.permutation start start [] (p.numLetters + 1)

/-- `"("+ " ".join([str(i) for i in cycle.keys()]) +")"`. -/
def renderCycleDict (cycle : Dict) : String :=
  "(" ++ String.intercalate " " ((dictKeys cycle).map (fun i => toString i)) ++ ")"

/-- The scan of `get_cycle_notation`: for each key `k` (in set-iteration
order), if still uncovered, trace its cycle, keep its rendering when the
cycle is non-trivial, and remove its keys from the uncovered set. Every key
is removed on (or before) its own turn, so the outer `while` runs exactly
one pass over the keys. -/
def cycleNotationAux (p : Permutation) :
    List Nat → List Nat → List String → Option (List String)
  | [], _, acc => some acc
  | k :: ks, updated, acc =>
    if updated.contains k then
      match Permutation.find_cycle_dict p k with
      | none => none
      | some cycle =>
        let acc' := if cycle.length > 1 then acc ++ [renderCycleDict cycle] else acc
        cycleNotationAux p ks (updated.filter (fun x => !((dictKeys cycle).contains x))) acc'
    else cycleNotationAux p ks updated acc

/-- `Permutation.get_cycle_notation`: `"1"` for the identity, otherwise the
collected cycle strings concatenated in reverse discovery order
(`"".join(cycle_list[::-1])`). -/
def Permutation.get_cycle_notation (p : Permutation) : Option String :=
  if Permutation.is_identity p then some "1"
  else
    let keySet := pySetList (dictKeys p.permutation)
    match cycleNotationAux p keySet keySet [] with
    | none => none
    | some cs => some (String.join cs.reverse)

/-- The scan of `get_cycle_decomposition`: as for the notation, but a
non-trivial cycle dict is extended with `cycle[i] = i` for every other key
`i` (set-difference iteration order) and wrapped as a `Permutation`. -/
def cycleDecompAux (p : Permutation) :
    List Nat → List Nat → List Permutation → Option (List Permutation)
  | [], _, acc => some acc
  | k :: ks, updated, acc =>
    if updated.contains k then
      match Permutation.find_cycle_dict p k with
      | none => none
      | some cycle =>
        let updated' := updated.filter (fun x => !((dictKeys cycle).contains x))
        let acc' :=
          if cycle.length > 1 then
            acc ++ [⟨((pySetList (dictKeys p.permutation)).filter
              (fun i => !((dictKeys cycle).contains i))).foldl
                (fun d i => dictInsert d i i) cycle⟩]
          else acc
        cycleDecompAux p ks updated' acc'
    else cycleDecompAux p ks updated acc

/-- `Permutation.get_cycle_decomposition`. -/
def Permutation.get_cycle_decomposition (p : Permutation) :
    Option (List Permutation) :=
  let keySet := pySetList (dictKeys p.permutation)
  cycleDecompAux p keySet keySet []

/-- The `while` loop of `get_order`: multiply by `p` until the running
product is the identity, counting factors. Fuel bounds the loop (a valid
permutation has order at most `num_letters!`). -/
def getOrderAux (p : Permutation) : Permutation → Nat → Nat → Option Nat
  | _, _, 0 => none
  | product, count, fuel+1 =>
    if Permutation.is_identity product then some count
    else
      match Permutation.mul product p with
      | none => none
      | some q => getOrderAux p q (count + 1) fuel

/-- `Permutation.get_order`. -/
def Permutation.get_order (p : Permutation) : Option Nat :=
  getOrderAux p p 1 (Nat.factorial p.numLetters + 1)

/-- `Permutation.validate_permutation` (a `@staticmethod` that is never
called by `__init__` or anywhere else in the repository): sort the items
by key, assert the sorted key list is exactly `[1..n]` and the value set is
exactly `{1..n}`; `none` models the `AssertionError`. -/
def Permutation.validate_permutation (d : Dict) : Option Dict :=
  if (dictKeys (List.insertionSort (fun a b : Nat × Nat => a.1 ≤ b.1) d)
        == List.range' 1 d.length)
      && ((dictValues (List.insertionSort (fun a b : Nat × Nat => a.1 ≤ b.1) d)).toFinset
        == (List.range' 1 d.length).toFinset)
  then some (List.insertionSort (fun a b : Nat × Nat => a.1 ≤ b.1) d) else none

/-- `is_transposition`. -/
def Permutation.is_transposition (p : Permutation) : Bool :=
  (p.permutation.filter (fun q => !(q.1 == q.2))).length == 2

/-- The mapping stored by a permutation, as a function (`k` itself as junk
default outside the dict's key set). -/
def Permutation.permFun (p : Permutation) (k : Nat) : Nat :=
  (dictGet p.permutation k).getD k

/-- The spec's well-formedness invariant on the stored mapping: keys and
values each exactly cover `{1..n}`, `n = num_letters` — i.e. the dict is a
bijection on `{1..n}`. -/
def Permutation.IsValid (p : Permutation) : Prop :=
  (dictKeys p.permutation).Perm (List.range' 1 p.numLetters) ∧
  (dictValues p.permutation).Perm (List.range' 1 p.numLetters)

instance (p : Permutation) : Decidable p.IsValid := by
  unfold Permutation.IsValid
  exact instDecidableAnd

/-! ### Residue classes (`class ResidueClass` and subclasses, lines 157-278) -/

/-- `ResidueClass` data: normalized residue and modulus. -/
structure ResidueClass where
  residue : Int
  modulus : Int
deriving DecidableEq

/-- `ResidueClass.__init__`: `self.residue = residue % modulus`. -/
def ResidueClass.init (residue modulus : Int) : ResidueClass :=
  ⟨residue % modulus, modulus⟩

/-- `ResidueClass.__eq__`. -/
def ResidueClass.pyEqB (a b : ResidueClass) : Bool :=
  (a.residue == b.residue) && (a.modulus == b.modulus)

/-- `ResidueClass.__ne__`: `return ~self.__eq__(self,other)` — arity
`TypeError`, exactly as for `Permutation.__ne__`. -/
def ResidueClass.pyNe (a b : ResidueClass) : Except PyError Int :=
  (callBoundMethod1 ResidueClass.pyEqB a [a, b]).map pyBitwiseNot

/-- `AdditiveResidueClass` data (inherits the normalizing `__init__`). -/
structure AdditiveResidueClass where
  residue : Int
  modulus : Int
deriving DecidableEq

/-- `AdditiveResidueClass(residue, modulus)`. -/
def AdditiveResidueClass.init (residue modulus : Int) : AdditiveResidueClass :=
  ⟨residue % modulus, modulus⟩

/-- `AdditiveResidueClass.__mul__`: addition of residues mod the common
modulus; differing moduli raise `ValueError`. -/
def AdditiveResidueClass.mul (a b : AdditiveResidueClass) :
    Except PyError AdditiveResidueClass :=
  if a.modulus != b.modulus then .error .valueError
  else .ok (AdditiveResidueClass.init ((a.residue + b.residue) % a.modulus) a.modulus)

/-- `AdditiveResidueClass.__invert__`: negation. -/
def AdditiveResidueClass.inv (x : AdditiveResidueClass) : AdditiveResidueClass :=
  AdditiveResidueClass.init (-x.residue) x.modulus

/-- `AdditiveResidueClass.get_order`:
`int(self.modulus/math.gcd(self.residue, self.modulus))` (exact for the
positive moduli in scope). -/
def AdditiveResidueClass.get_order (x : AdditiveResidueClass) : Int :=
  x.modulus / (Int.gcd x.residue x.modulus : Int)

/-- `AdditiveResidueClass.is_identity`: residue 0. -/
def AdditiveResidueClass.is_identity (x : AdditiveResidueClass) : Bool :=
  x.residue == 0

/-- Inherited `__eq__` applied to additive residues. -/
def AdditiveResidueClass.pyEqB (a b : AdditiveResidueClass) : Bool :=
  (a.residue == b.residue) && (a.modulus == b.modulus)

/-- Inherited `__ne__` applied to additive residues: arity `TypeError`. -/
def AdditiveResidueClass.pyNe (a b : AdditiveResidueClass) : Except PyError Int :=
  (callBoundMethod1 AdditiveResidueClass.pyEqB a [a, b]).map pyBitwiseNot

/-- `MultiplicativeResidueClass` data (inherits the normalizing `__init__`). -/
structure MultiplicativeResidueClass where
  residue : Int
  modulus : Int
deriving DecidableEq

/-- `MultiplicativeResidueClass(residue, modulus)`. -/
def MultiplicativeResidueClass.init (residue modulus : Int) :
    MultiplicativeResidueClass :=
  ⟨residue % modulus, modulus⟩

/-- `MultiplicativeResidueClass.__mul__`. -/
def MultiplicativeResidueClass.mul (a b : MultiplicativeResidueClass) :
    Except PyError MultiplicativeResidueClass :=
  if a.modulus != b.modulus then .error .valueError
  else .ok (MultiplicativeResidueClass.init ((a.residue * b.residue) % a.modulus) a.modulus)

/-- `MultiplicativeResidueClass.__invert__`: requires
`math.gcd(residue, modulus) == 1` (else `ValueError`), then Euler's
theorem: `residue ** (totient(modulus) - 1)`, normalized by the
constructor. -/
def MultiplicativeResidueClass.inv (x : MultiplicativeResidueClass) :
    Except PyError MultiplicativeResidueClass :=
  if Int.gcd x.residue x.modulus != 1 then .error .valueError
  else .ok (MultiplicativeResidueClass.init
    (x.residue ^ (Nat.totient x.modulus.toNat - 1)) x.modulus)

/-- `MultiplicativeResidueClass.get_order`: the same
`int(modulus/gcd(residue, modulus))` formula as the additive class. -/
def MultiplicativeResidueClass.get_order (x : MultiplicativeResidueClass) : Int :=
  x.modulus / (Int.gcd x.residue x.modulus : Int)

/-- `MultiplicativeResidueClass.is_identity`: residue 1. -/
def MultiplicativeResidueClass.is_identity (x : MultiplicativeResidueClass) : Bool :=
  x.residue == 1

/-- Inherited `__eq__` applied to multiplicative residues. -/
def MultiplicativeResidueClass.pyEqB (a b : MultiplicativeResidueClass) : Bool :=
  (a.residue == b.residue) && (a.modulus == b.modulus)

/-- Inherited `__ne__` applied to multiplicative residues: arity
`TypeError`. -/
def MultiplicativeResidueClass.pyNe (a b : MultiplicativeResidueClass) :
    Except PyError Int :=
  (callBoundMethod1 MultiplicativeResidueClass.pyEqB a [a, b]).map pyBitwiseNot

/-! ### Matrix (`class Matrix`, lines 280-314) -/

/-- `Matrix` data: entry rows (reduced by the constructor) and the
characteristic. -/
structure Matrix where
  matrix : List (List Int)
  characteristic : Int
deriving DecidableEq

/-- `Matrix.__init__` as a call: `characteristic` has no default value, so
calling `Matrix(m)` with the argument missing raises `TypeError`; otherwise
every entry is reduced mod the characteristic. -/
def Matrix.initArgs (m : List (List Int)) (characteristic : Option Int) :
    Except PyError Matrix :=
  match characteristic with
  | none => .error .typeError
  | some c => .ok ⟨m.map (fun row => row.map (fun e => e % c)), c⟩

/-- `self.dimension = self.matrix.shape[0]` (the row count). -/
def Matrix.dimension (M : Matrix) : Nat := M.matrix.length

/-- `sympy.eye(n)` as integer rows. -/
def eyeL (n : Nat) : List (List Int) :=
  (List.range n).map (fun i => (List.range n).map (fun j => if i = j then (1 : Int) else 0))

/-- Standard matrix product of rows (entry `(i,j)` is `Σ_k A[i][k]*B[k][j]`). -/
def matMulL (A B : List (List Int)) : List (List Int) :=
  A.map (fun row =>
    (List.range (B.headD []).length).map (fun j =>
      (List.zipWith (fun a brow => a * brow.getD j 0) row B).sum))

/-- `Matrix.__mul__`: sympy raises on mismatched shapes; otherwise the
product with entries reduced mod `self.characteristic`. -/
def Matrix.mul (a b : Matrix) : Except PyError Matrix :=
  if (a.matrix.headD []).length != b.matrix.length then .error .valueError
  else .ok ⟨(matMulL a.matrix b.matrix).map
      (fun row => row.map (fun e => e % a.characteristic)),
    a.characteristic⟩

/-- Modelled from the spec: the external exact integer determinant
(consumed via sympy) — Laplace expansion along the first row. -/
def detL : (m : List (List Int)) → Int
  | [] => 1
  | row :: rest =>
    ((List.range row.length).map
      (fun j => (-1 : Int) ^ j * row.getD j 0 *
        detL (rest.map (fun r => r.eraseIdx j)))).sum
termination_by m => m.length
decreasing_by simp [List.length_map]

/-- Modelled from the spec: adjugate matrix used by exact modular matrix
inversion. -/
def adjL (m : List (List Int)) : List (List Int) :=
  (List.range m.length).map (fun i =>
    (List.range m.length).map (fun j =>
      (-1 : Int) ^ (i + j) * detL ((m.eraseIdx j).map (fun r => r.eraseIdx i))))

/-- Modelled from the spec: a modular inverse of a scalar, `none` when no
inverse exists. -/
def scalarInvMod (a p : Int) : Option Int :=
  ((List.range p.toNat).map (fun y => (y : Int))).find?
    (fun y => (a * y) % p == 1 % p)

/-- Modelled from the spec: the external exact modular matrix inverse
(`sympy.Matrix.inv_mod`): fails exactly when the determinant is not a unit
mod `p`, otherwise `det⁻¹ · adjugate` with entries reduced mod `p`. -/
def matInvMod (m : List (List Int)) (p : Int) : Option (List (List Int)) :=
  match scalarInvMod (detL m % p) p with
  | none => none
  | some dinv => some ((adjL m).map (fun row => row.map (fun e => (dinv * e) % p)))

/-- `Matrix.__invert__`: `Matrix(self.matrix.inv_mod(self.characteristic),
self.characteristic)`; a singular matrix raises. -/
def Matrix.inv (M : Matrix) : Except PyError Matrix :=
  match matInvMod M.matrix M.characteristic with
  | none => .error .valueError
  | some m => Matrix.initArgs m (some M.characteristic)

/-- `Matrix.__pow__`: the `N == 0` branch is `Matrix(sympy.eye(self.dimension))`
— a constructor call MISSING the required `characteristic` argument, hence
a `TypeError`; positive and negative branches are left folds of `__mul__`
as in `reduce`. -/
def Matrix.pow (M : Matrix) (N : Int) : Except PyError Matrix :=
  if N = 0 then Matrix.initArgs (eyeL M.dimension) none
  else if 0 < N then
    (List.replicate (N.toNat - 1) M).foldlM (fun a x => Matrix.mul a x) M
  else do
    let Mi ← Matrix.inv M
    (List.replicate (N.natAbs - 1) Mi).foldlM (fun a x => Matrix.mul a x) Mi

/-- `Matrix.is_identity`: `self.matrix == sympy.eye(self.dimension)`. -/
def Matrix.is_identity (M : Matrix) : Bool :=
  M.matrix == eyeL M.dimension

/-! ### Statistical invariants (`invariants.py`) -/

/-- `itertools.combinations_with_replacement(l, 2)`: the pairs
`(l[i], l[j])` with `i ≤ j`, in lexicographic index order. -/
def cwr2 {α : Type} : List α → List (α × α)
  | [] => []
  | x :: xs => (x :: xs).map (fun y => (x, y)) ++ cwr2 xs

/-- `equal_order_probability(group)`.

Modelled from the spec: the external `Group` collaborator (`groups.py`, not
part of the sources) is consumed only through its stable finite element
iteration, the elements' `order` attribute, and `group.order` = element
count; it is modelled as a list of elements together with their `order`
function. Python's float division is modelled exactly over `ℚ`. -/
def equal_order_probability {α : Type} (order : α → Int) (group : List α) : ℚ :=
  (((cwr2 group).filter (fun q => order q.1 == order q.2)).length : ℚ) /
    ((Nat.choose (group.length + 1) 2 : Nat) : ℚ)

/-! ### Spec-side definitions (refinement targets, from the spec's words) -/

/-- Following the spec's words (cycle tracing): the successive images of
`start`, collected until the traversal returns to `start`; fuel-bounded. -/
def orbitAux (f : Nat → Nat) (start : Nat) : Nat → Nat → List Nat
  | _, 0 => []
  | current, fuel+1 =>
    current :: (if f current = start then [] else orbitAux f start (f current) fuel)

/-- Following the spec's words: the cycle containing `start`, as the list
of its elements in traversal order. -/
def specOrbit (f : Nat → Nat) (n start : Nat) : List Nat :=
  orbitAux f start start (n + 1)

/-- Following the spec's words: partition the scanned keys into disjoint
cycles by repeated tracing, collecting the cycles in discovery order. -/
def specDiscover (f : Nat → Nat) (n : Nat) : List Nat → List Nat → List (List Nat)
  | [], _ => []
  | k :: ks, covered =>
    if covered.contains k then specDiscover f n ks covered
    else specOrbit f n k :: specDiscover f n ks (covered ++ specOrbit f n k)

/-- Following the spec's words: a cycle rendered as a parenthesized
space-separated sequence of its elements in traversal order. -/
def renderCycleL (c : List Nat) : String :=
  "(" ++ String.intercalate " " (c.map (fun i => toString i)) ++ ")"

/-- Following the spec's words (cycle notation, non-identity case): trace
the disjoint cycles of `{1..n}` in discovery order, discard the length-1
cycles, render each remaining cycle, and concatenate the renderings in
REVERSE discovery order. -/
def cycleNotationSpec (f : Nat → Nat) (n : Nat) : String :=
  String.join ((((specDiscover f n (List.range' 1 n) []).filter
    (fun c => c.length > 1)).map renderCycleL).reverse)

/-! ### Basic dictionary lemmas -/

theorem dictGet_mem {d : Dict} {k v : Nat} (h : dictGet d k = some v) :
    (k, v) ∈ d := by
  unfold dictGet at h
  cases hf : d.find? (fun q => q.1 == k) with
  | none => rw [hf] at h; simp at h
  | some q =>
    rw [hf] at h
    simp at h
    have hq := List.find?_some hf
    have hm := List.mem_of_find?_eq_some hf
    simp at hq
    rwa [← h, ← hq]

theorem dictKeys_cons (q : Nat × Nat) (d : Dict) :
    dictKeys (q :: d) = q.1 :: dictKeys d := rfl

theorem dictKeys_append (d e : Dict) :
    dictKeys (d ++ e) = dictKeys d ++ dictKeys e := by
  unfold dictKeys; simp

theorem dictGet_cons (q : Nat × Nat) (d : Dict) (k : Nat) :
    dictGet (q :: d) k = if q.1 = k then some q.2 else dictGet d k := by
  unfold dictGet
  by_cases hq : q.1 = k
  · rw [List.find?_cons_of_pos _ (by simp [hq]), if_pos hq]; rfl
  · rw [List.find?_cons_of_neg _ (by simp [hq]), if_neg hq]

theorem dictGet_isSome_iff {d : Dict} {k : Nat} :
    (dictGet d k).isSome ↔ k ∈ dictKeys d := by
  induction d with
  | nil => simp [dictGet, dictKeys]
  | cons q d ih =>
    rw [dictGet_cons, dictKeys_cons]
    by_cases hq : q.1 = k
    · simp [hq]
    · rw [if_neg hq]
      simp [ih, List.mem_cons, Ne.symm hq]

theorem dictGet_of_nodup_mem {d : Dict} (hnd : (dictKeys d).Nodup)
    {k v : Nat} (hm : (k, v) ∈ d) : dictGet d k = some v := by
  have hk : k ∈ dictKeys d := by
    unfold dictKeys; exact List.mem_map.mpr ⟨(k, v), hm, rfl⟩
  have hs : (dictGet d k).isSome := dictGet_isSome_iff.mpr hk
  obtain ⟨v', hv'⟩ := Option.isSome_iff_exists.mp hs
  have hm' : (k, v') ∈ d := dictGet_mem hv'
  have hinj := List.inj_on_of_nodup_map (f := fun q : Nat × Nat => q.1) hnd
  have := hinj hm' hm rfl
  rw [hv']
  rw [show v = v' from congrArg Prod.snd this.symm]

theorem dictHasKey_iff {d : Dict} {k : Nat} :
    dictHasKey d k = true ↔ k ∈ dictKeys d := by
  unfold dictHasKey dictKeys
  simp

theorem dictInsert_fresh {d : Dict} {k : Nat} (h : k ∉ dictKeys d) (v : Nat) :
    dictInsert d k v = d ++ [(k, v)] := by
  unfold dictInsert
  rw [if_neg]
  intro hc
  exact h (dictHasKey_iff.mp hc)

theorem foldl_dictInsert_fresh :
    ∀ (l : List (Nat × Nat)) (acc : Dict), (dictKeys l).Nodup →
      (∀ k ∈ dictKeys l, k ∉ dictKeys acc) →
      l.foldl (fun d q => dictInsert d q.1 q.2) acc = acc ++ l := by
  intro l
  induction l with
  | nil => intro acc _ _; simp
  | cons q l ih =>
    intro acc hnd hfresh
    rw [dictKeys_cons] at hnd hfresh
    have hq : q.1 ∉ dictKeys acc := hfresh q.1 (List.mem_cons_self _ _)
    have hnotl : q.1 ∉ dictKeys l := (List.nodup_cons.mp hnd).1
    have hnd' : (dictKeys l).Nodup := (List.nodup_cons.mp hnd).2
    rw [List.foldl_cons, dictInsert_fresh hq, ih (acc ++ [q]) hnd' ?fresh]
    · simp
    case fresh =>
      intro k hk
      rw [dictKeys_append]
      simp only [List.mem_append, not_or]
      refine ⟨hfresh k (List.mem_cons_of_mem _ hk), ?_⟩
      intro hkq
      have : k = q.1 := by simpa [dictKeys] using hkq
      exact hnotl (this ▸ hk)

theorem dictOfPairs_of_nodup {l : List (Nat × Nat)}
    (h : (dictKeys l).Nodup) : dictOfPairs l = l := by
  unfold dictOfPairs
  rw [foldl_dictInsert_fresh l [] h (by intro k _; unfold dictKeys; simp)]
  simp

theorem dictGet_map_pairs (l : List Nat) (g : Nat → Nat) (k : Nat) :
    dictGet (l.map (fun i => (i, g i))) k =
      if k ∈ l then some (g k) else none := by
  induction l with
  | nil => simp [dictGet]
  | cons i l ih =>
    by_cases hik : i = k
    · subst hik
      simp [dictGet, List.find?]
    · unfold dictGet at ih ⊢
      simp only [List.map_cons, List.find?]
      have : ((i, g i).1 == k) = false := by simp [hik]
      rw [this]
      rw [ih]
      simp [List.mem_cons, hik, Ne.symm hik]

theorem dictGet_append (d e : Dict) (k : Nat) :
    dictGet (d ++ e) k =
      if k ∈ dictKeys d then dictGet d k else dictGet e k := by
  induction d with
  | nil => simp [dictKeys]
  | cons q d ih =>
    rw [List.cons_append, dictGet_cons, dictGet_cons, dictKeys_cons]
    by_cases hq : q.1 = k
    · rw [if_pos hq, if_pos hq, if_pos (by simp [hq])]
    · rw [if_neg hq, if_neg hq, ih]
      by_cases hk : k ∈ dictKeys d
      · rw [if_pos hk, if_pos (by simp [hk])]
      · rw [if_neg hk, if_neg (by simp [Ne.symm hq, hk])]

/-! ### Claim C7: Matrix.__pow__ at exponent 0 -/

/-- C7: for every MatrixElement `M`, raising `M` to the power 0 does NOT
return the identity matrix element: the `N == 0` branch of `__pow__` calls
the constructor without its required `characteristic` argument, so it
raises `TypeError`. This refutes the claim (and the spec's `N = 0 →
identity of same degree`); the claim describes the evident intent, the
code is a slip, hence a code bug. -/
theorem C7_pow_zero_type_error (M : Matrix) :
    Matrix.pow M 0 = Except.error PyError.typeError := by
  simp [Matrix.pow, Matrix.initArgs]

/-! ### Claim C10: __ne__ arity error -/

/-- C10: evaluating `!=` on two PermutationElements or two ResidueElements
(the base class and both subclasses inherit the same `__ne__`) never
returns a boolean: `__ne__` invokes the bound `__eq__` with an extra
argument, so every `!=` comparison raises `TypeError`. -/
theorem C10_ne_type_error (a b : Permutation) (c d : ResidueClass)
    (x y : AdditiveResidueClass) (u v : MultiplicativeResidueClass) :
    Permutation.pyNe a b = Except.error PyError.typeError ∧
    ResidueClass.pyNe c d = Except.error PyError.typeError ∧
    AdditiveResidueClass.pyNe x y = Except.error PyError.typeError ∧
    MultiplicativeResidueClass.pyNe u v = Except.error PyError.typeError := by
  exact ⟨rfl, rfl, rfl, rfl⟩

/-! ### Claim C2: order of the identity -/

/-- C2 counterexample: the multiplicative residue 1 mod 2 satisfies
`is_identity`, yet `get_order` returns `modulus/gcd(1, modulus) = 2`, not
1 — refuting the claim that `order()` of the identity is 1 for
`MultiplicativeResidueClass` (and its "order 1 for every modulus n ≥ 1"
instance). -/
theorem C2_counterexample :
    (MultiplicativeResidueClass.init 1 2).is_identity = true ∧
    (MultiplicativeResidueClass.init 1 2).get_order = 2 ∧
    ¬((MultiplicativeResidueClass.init 1 2).get_order = 1) := by
  refine ⟨rfl, by decide, by decide⟩

/-- C2 (amended): `is_identity` implies `order() = 1` for
`PermutationElement` and `AdditiveResidueClass` (positive modulus), but for
`MultiplicativeResidueClass` the identity's `get_order` equals the modulus
(the additive-order formula `n/gcd(1,n) = n`), which is 1 only in the
degenerate modulus-1 case — where `is_identity` never holds. -/
theorem C2_identity_order :
    (∀ p : Permutation, Permutation.is_identity p = true →
      Permutation.get_order p = some 1) ∧
    (∀ x : AdditiveResidueClass, 1 ≤ x.modulus → x.is_identity = true →
      x.get_order = 1) ∧
    (∀ x : MultiplicativeResidueClass, 1 ≤ x.modulus → x.is_identity = true →
      x.get_order = x.modulus) := by
  refine ⟨?_, ?_, ?_⟩
  · intro p hid
    unfold Permutation.get_order
    show getOrderAux p p 1 (Nat.factorial p.numLetters + 1) = some 1
    unfold getOrderAux
    rw [if_pos hid]
  · intro x hm hid
    unfold AdditiveResidueClass.is_identity at hid
    have h0 : x.residue = 0 := by simpa using hid
    unfold AdditiveResidueClass.get_order
    rw [h0, Int.gcd_zero_left]
    rw [Int.natCast_natAbs, abs_of_nonneg (by omega)]
    exact Int.ediv_self (by omega)
  · intro x hm hid
    unfold MultiplicativeResidueClass.is_identity at hid
    have h1 : x.residue = 1 := by simpa using hid
    unfold MultiplicativeResidueClass.get_order
    rw [h1]
    have : Int.gcd 1 x.modulus = 1 := by
      unfold Int.gcd; simp
    rw [this]
    simp

/-- Witness for C2_identity_order at concrete inputs. -/
theorem C2_witness :
    Permutation.get_order ⟨[(1, 1), (2, 2)]⟩ = some 1 ∧
    AdditiveResidueClass.get_order ⟨0, 5⟩ = 1 ∧
    MultiplicativeResidueClass.get_order ⟨1, 5⟩ = 5 :=
  ⟨C2_identity_order.1 ⟨[(1, 1), (2, 2)]⟩ (by decide),
   C2_identity_order.2.1 ⟨0, 5⟩ (by decide) (by decide),
   C2_identity_order.2.2 ⟨1, 5⟩ (by decide) (by decide)⟩

/-! ### Claim C6: multiplicative inversion via Euler's theorem -/

theorem euler_mul_pow_totient_emod (a n : Int) (h2 : 2 ≤ n) (ha : 0 ≤ a)
    (hg : Int.gcd a n = 1) :
    (a * a ^ (Nat.totient n.toNat - 1)) % n = 1 := by
  have haA : ((a.toNat : Int)) = a := Int.toNat_of_nonneg ha
  have hnM : ((n.toNat : Int)) = n := Int.toNat_of_nonneg (by omega)
  have hM2 : 2 ≤ n.toNat := by omega
  have hcop : Nat.Coprime a.toNat n.toNat := by
    have h := hg
    rw [← haA, ← hnM] at h
    rw [Int.gcd_natCast_natCast] at h
    exact h
  have hφ : 1 ≤ Nat.totient n.toNat := Nat.totient_pos.mpr (by omega)
  have heuler : a.toNat ^ Nat.totient n.toNat ≡ 1 [MOD n.toNat] :=
    Nat.ModEq.pow_totient hcop
  have hA : a.toNat * a.toNat ^ (Nat.totient n.toNat - 1) =
      a.toNat ^ Nat.totient n.toNat := by
    have hsplit : Nat.totient n.toNat = (Nat.totient n.toNat - 1) + 1 := by omega
    conv_rhs => rw [hsplit, pow_succ']
  have hmod : (a.toNat * a.toNat ^ (Nat.totient n.toNat - 1)) % n.toNat = 1 := by
    rw [hA]
    unfold Nat.ModEq at heuler
    rw [heuler, Nat.mod_eq_of_lt (by omega)]
  calc (a * a ^ (Nat.totient n.toNat - 1)) % n
      = (((a.toNat * a.toNat ^ (Nat.totient n.toNat - 1) : Nat) : Int)) % ((n.toNat : Int)) := by
        rw [hnM]; push_cast; rw [haA]
    _ = (((a.toNat * a.toNat ^ (Nat.totient n.toNat - 1)) % n.toNat : Nat) : Int) := by
        rw [Int.natCast_mod]
    _ = 1 := by rw [hmod]; rfl

/-- C6 counterexample: at modulus n = 1 (residue a = 1, normalized to 0),
gcd(a, n) = 1 and inversion succeeds, but `a * inverse(a)` has residue 0,
not residue 1, and `is_identity` is false — so the claim's "a * inverse(a)
is the multiplicative identity (residue 1)" fails as stated for n = 1. -/
theorem C6_counterexample :
    Int.gcd (MultiplicativeResidueClass.init 1 1).residue
      (MultiplicativeResidueClass.init 1 1).modulus = 1 ∧
    (MultiplicativeResidueClass.init 1 1).inv =
      Except.ok (MultiplicativeResidueClass.mk 0 1) ∧
    (MultiplicativeResidueClass.init 1 1).mul (MultiplicativeResidueClass.mk 0 1) =
      Except.ok (MultiplicativeResidueClass.mk 0 1) ∧
    (MultiplicativeResidueClass.mk 0 1).is_identity = false ∧
    (MultiplicativeResidueClass.mk 0 1).residue ≠ 1 := by
  refine ⟨by decide, rfl, rfl, by decide, by decide⟩

/-- C6 (amended): for every multiplicative residue mod n, inversion fails
with NotInvertible iff gcd(residue, n) ≠ 1; when gcd(residue, n) = 1 the
inverse is residue^(φ(n)−1) mod n, and — for n ≥ 2 (the amendment: at
n = 1 the sole residue is 0, so no element has residue 1) —
`a * inverse(a)` is the multiplicative identity (residue 1). For n = 7,
a = 3 the inverse has residue 5. -/
theorem C6_inverse_euler :
    (∀ x : MultiplicativeResidueClass,
      (∃ e, x.inv = Except.error e) ↔ Int.gcd x.residue x.modulus ≠ 1) ∧
    (∀ x : MultiplicativeResidueClass, Int.gcd x.residue x.modulus = 1 →
      x.inv = Except.ok (MultiplicativeResidueClass.init
        (x.residue ^ (Nat.totient x.modulus.toNat - 1)) x.modulus)) ∧
    (∀ r n : Int, 2 ≤ n →
      Int.gcd (MultiplicativeResidueClass.init r n).residue n = 1 →
      ∃ y, (MultiplicativeResidueClass.init r n).inv = Except.ok y ∧
        (MultiplicativeResidueClass.init r n).mul y =
          Except.ok (MultiplicativeResidueClass.mk 1 n) ∧
        (MultiplicativeResidueClass.mk 1 n).is_identity = true) ∧
    (MultiplicativeResidueClass.init 3 7).inv =
      Except.ok (MultiplicativeResidueClass.mk 5 7) := by
  refine ⟨?_, ?_, ?_, by rfl⟩
  · intro x
    unfold MultiplicativeResidueClass.inv
    by_cases hg : Int.gcd x.residue x.modulus = 1
    · rw [if_neg (by simp [hg])]
      simp [hg]
    · rw [if_pos (by simpa using hg)]
      simp [hg]
  · intro x hg
    unfold MultiplicativeResidueClass.inv
    rw [if_neg (by simp [hg])]
  · intro r n h2 hg
    set x := MultiplicativeResidueClass.init r n with hx
    have hxres : x.residue = r % n := rfl
    have hxmod : x.modulus = n := rfl
    refine ⟨MultiplicativeResidueClass.init
      (x.residue ^ (Nat.totient x.modulus.toNat - 1)) x.modulus, ?_, ?_,
      by simp [MultiplicativeResidueClass.is_identity]⟩
    · unfold MultiplicativeResidueClass.inv
      rw [if_neg (by simp [hxmod ▸ hg])]
    · unfold MultiplicativeResidueClass.mul MultiplicativeResidueClass.init
      rw [if_neg (by simp)]
      have hres : 0 ≤ x.residue := by
        rw [hxres]
        exact Int.emod_nonneg r (by omega)
    -- the product reduces to 1 mod n by Euler's theorem
      have hcore : (x.residue * x.residue ^ (Nat.totient n.toNat - 1)) % n = 1 :=
        euler_mul_pow_totient_emod x.residue n h2 hres (hxmod ▸ hg)
      congr 1
      show MultiplicativeResidueClass.mk
        ((x.residue * (x.residue ^ (Nat.totient x.modulus.toNat - 1) % x.modulus)) % x.modulus % x.modulus)
        x.modulus = MultiplicativeResidueClass.mk 1 n
      rw [hxmod]
      congr 1
      rw [Int.emod_emod_of_dvd _ dvd_rfl]
      rw [Int.mul_emod, Int.emod_emod_of_dvd _ dvd_rfl, ← Int.mul_emod]
      exact hcore

/-- Witness for C6_inverse_euler at concrete inputs. -/
theorem C6_witness :
    ((∃ e, (MultiplicativeResidueClass.mk 2 4).inv = Except.error e) ↔
      Int.gcd (MultiplicativeResidueClass.mk 2 4).residue
        (MultiplicativeResidueClass.mk 2 4).modulus ≠ 1) ∧
    ((MultiplicativeResidueClass.mk 3 7).inv = Except.ok
      (MultiplicativeResidueClass.init
        ((MultiplicativeResidueClass.mk 3 7).residue ^
          (Nat.totient (MultiplicativeResidueClass.mk 3 7).modulus.toNat - 1))
        (MultiplicativeResidueClass.mk 3 7).modulus)) ∧
    (∃ y, (MultiplicativeResidueClass.init 3 7).inv = Except.ok y ∧
      (MultiplicativeResidueClass.init 3 7).mul y =
        Except.ok (MultiplicativeResidueClass.mk 1 7) ∧
      (MultiplicativeResidueClass.mk 1 7).is_identity = true) :=
  ⟨C6_inverse_euler.1 (MultiplicativeResidueClass.mk 2 4),
   C6_inverse_euler.2.1 (MultiplicativeResidueClass.mk 3 7) (by decide),
   C6_inverse_euler.2.2.1 3 7 (by decide) (by decide)⟩

/-! ### Claim C1: construction vs. validation -/

instance : IsTotal (Nat × Nat) (fun a b => a.1 ≤ b.1) :=
  ⟨fun a b => le_total a.1 b.1⟩

instance : IsTrans (Nat × Nat) (fun a b => a.1 ≤ b.1) :=
  ⟨fun _ _ _ h1 h2 => le_trans h1 h2⟩

theorem perm_of_toFinset_eq_of_length {v r : List Nat} (hnd : r.Nodup)
    (hlen : v.length = r.length) (hfs : v.toFinset = r.toFinset) :
    v.Perm r := by
  have hr_card : r.toFinset.card = r.length := List.toFinset_card_of_nodup hnd
  have hv_card : v.toFinset.card = v.dedup.length := List.card_toFinset v
  have hdlen : v.dedup.length = v.length := by
    rw [← hv_card, hfs, hr_card, hlen]
  have hvd : v.dedup = v := (List.dedup_sublist v).eq_of_length hdlen
  have hvnd : v.Nodup := hvd ▸ v.nodup_dedup
  rw [List.perm_ext_iff_of_nodup hvnd hnd]
  intro a
  rw [← List.mem_toFinset, ← List.mem_toFinset (l := r), hfs]

/-- C1: the constructor itself does NOT validate — `Permutation.__init__`
stores any mapping whatsoever and always succeeds (the repository never
calls `validate_permutation`); the separate static `validate_permutation`
does accept exactly the bijections on `{1..n}`. Since the claim (and the
spec's "validated on construction") describes the evident intent of the
dead validator while construction from the non-bijection `{1:1, 2:1}`
succeeds silently, this is a code bug. -/
theorem C1_construction_unvalidated :
    (∀ d : Dict, Permutation.init d = ⟨d⟩) ∧
    (∀ d : Dict, (Permutation.validate_permutation d).isSome ↔
      Permutation.IsValid ⟨d⟩) ∧
    Permutation.validate_permutation [(1, 1), (2, 1)] = none ∧
    Permutation.init [(1, 1), (2, 1)] = ⟨[(1, 1), (2, 1)]⟩ := by
  refine ⟨fun d => rfl, ?_, by decide, rfl⟩
  intro d
  unfold Permutation.validate_permutation
  have hsome : ∀ (c : Bool) (x : Dict),
      (if c = true then some x else none).isSome = c := by
    intro c x; cases c <;> simp
  set sorted := List.insertionSort (fun a b : Nat × Nat => a.1 ≤ b.1) d with hs
  have hperm : sorted.Perm d := List.perm_insertionSort _ d
  have hkeysperm : (dictKeys sorted).Perm (dictKeys d) := hperm.map _
  have hvalsperm : (dictValues sorted).Perm (dictValues d) := hperm.map _
  constructor
  · intro h
    rw [hsome] at h
    rw [Bool.and_eq_true] at h
    obtain ⟨h1, h2⟩ := h
    rw [beq_iff_eq] at h1 h2
    constructor
    · show (dictKeys d).Perm (List.range' 1 d.length)
      exact hkeysperm.symm.trans (h1 ▸ List.Perm.refl _)
    · show (dictValues d).Perm (List.range' 1 d.length)
      have hlen : (dictValues d).length = (List.range' 1 d.length).length := by
        simp [dictValues]
      refine perm_of_toFinset_eq_of_length (List.nodup_range' 1 d.length) hlen ?_
      rw [← List.toFinset_eq_of_perm _ _ hvalsperm]
      exact h2
  · intro h
    obtain ⟨hk, hv⟩ := h
    rw [hsome, Bool.and_eq_true, beq_iff_eq, beq_iff_eq]
    have hnumlen : (⟨d⟩ : Permutation).numLetters = d.length := rfl
    rw [hnumlen] at hk hv
    constructor
    · have hsorted1 : List.Sorted (fun a b : Nat => a ≤ b) (dictKeys sorted) :=
        List.pairwise_map.mpr (List.sorted_insertionSort _ d)
      have hsorted2 : List.Sorted (fun a b : Nat => a ≤ b) (List.range' 1 d.length) :=
        (List.pairwise_lt_range' 1 d.length).imp le_of_lt
      exact List.eq_of_perm_of_sorted (hkeysperm.trans hk) hsorted1 hsorted2
    · rw [List.toFinset_eq_of_perm _ _ hvalsperm]
      exact List.toFinset_eq_of_perm _ _ hv

/-! ### Claim C9: equal_order_probability -/

theorem countP_eq_sum_fin {α : Type} (q : α → Bool) :
    ∀ l : List α, l.countP q = ∑ j : Fin l.length, if q (l.get j) = true then 1 else 0 := by
  intro l
  induction l with
  | nil => simp
  | cons x xs ih =>
    rw [List.countP_cons, ih]
    simp only [List.length_cons]
    rw [Fin.sum_univ_succ]
    simp only [List.get_cons_zero, List.get_cons_succ]
    exact Nat.add_comm _ _

theorem cwr2_countP {α : Type} (P : α × α → Bool) :
    ∀ l : List α, (cwr2 l).countP P =
      ∑ i : Fin l.length, ∑ j : Fin l.length,
        if i ≤ j ∧ P (l.get i, l.get j) = true then 1 else 0 := by
  intro l
  induction l with
  | nil => simp [cwr2]
  | cons x xs ih =>
    show ((x :: xs).map (fun y => (x, y)) ++ cwr2 xs).countP P = _
    rw [List.countP_append, List.countP_map]
    simp only [List.length_cons]
    rw [Fin.sum_univ_succ]
    congr 1
    · rw [countP_eq_sum_fin]
      simp only [List.length_cons]
      apply Finset.sum_congr rfl
      intro j _
      have h0 : ((0 : Fin (xs.length + 1)) ≤ j) := Fin.zero_le j
      simp [h0, Function.comp]
    · rw [ih]
      apply Finset.sum_congr rfl
      intro i _
      rw [Fin.sum_univ_succ]
      have hnot : ¬((i.succ : Fin (xs.length + 1)) ≤ 0) := by
        rw [Fin.le_def]
        simp
      rw [if_neg (by intro hc; exact hnot hc.1), zero_add]
      apply Finset.sum_congr rfl
      intro j _
      exact if_congr (and_congr Fin.succ_le_succ_iff.symm Iff.rfl) rfl rfl

/-- C9: `equal_order_probability(G)` equals the number of unordered pairs
with repetition `{x, y}` of (positions of) elements of the non-empty group
`G` whose orders agree, divided by `C(|G| + 1, 2)`. The group enumeration
is modelled from the spec as a list `g` with an `order` attribute; pairs of
positions `i ≤ j` formalize unordered pairs with repetition of elements. -/
theorem C9_equal_order_probability {α : Type} (order : α → Int) (g : List α)
    (h : g ≠ []) :
    equal_order_probability order g =
      (((Finset.univ.filter (fun p : Fin g.length × Fin g.length =>
        p.1 ≤ p.2 ∧ order (g.get p.1) = order (g.get p.2))).card : Nat) : ℚ) /
        ((Nat.choose (g.length + 1) 2 : Nat) : ℚ) := by
  unfold equal_order_probability
  congr 2
  rw [← List.countP_eq_length_filter]
  rw [cwr2_countP]
  rw [Finset.card_filter, Fintype.sum_prod_type]
  apply Finset.sum_congr rfl
  intro i _
  apply Finset.sum_congr rfl
  intro j _
  simp [beq_iff_eq]

/-- Witness for C9 at a concrete group enumeration. -/
theorem C9_witness :
    equal_order_probability (fun x => x) ([1, 2, 2] : List Int) =
      (((Finset.univ.filter (fun p : Fin ([1, 2, 2] : List Int).length × Fin ([1, 2, 2] : List Int).length =>
        p.1 ≤ p.2 ∧ ([1, 2, 2] : List Int).get p.1 = ([1, 2, 2] : List Int).get p.2)).card : Nat) : ℚ) /
        ((Nat.choose (([1, 2, 2] : List Int).length + 1) 2 : Nat) : ℚ) :=
  C9_equal_order_probability (fun x => x) ([1, 2, 2] : List Int) (by decide)

/-! ### Validity consequences for permutations -/

theorem permFun_eq_of_get {p : Permutation} {j v : Nat}
    (h : dictGet p.permutation j = some v) : Permutation.permFun p j = v := by
  unfold Permutation.permFun
  rw [h]
  rfl

theorem Permutation.IsValid.keys_nodup {p : Permutation} (h : p.IsValid) :
    (dictKeys p.permutation).Nodup :=
  h.1.nodup_iff.mpr (List.nodup_range' 1 p.numLetters)

theorem Permutation.IsValid.values_nodup {p : Permutation} (h : p.IsValid) :
    (dictValues p.permutation).Nodup :=
  h.2.nodup_iff.mpr (List.nodup_range' 1 p.numLetters)

theorem Permutation.IsValid.mem_keys_iff {p : Permutation} (h : p.IsValid) {k : Nat} :
    k ∈ dictKeys p.permutation ↔ (1 ≤ k ∧ k < 1 + p.numLetters) := by
  rw [h.1.mem_iff]
  exact List.mem_range'_1

theorem Permutation.IsValid.mem_values_iff {p : Permutation} (h : p.IsValid) {v : Nat} :
    v ∈ dictValues p.permutation ↔ (1 ≤ v ∧ v < 1 + p.numLetters) := by
  rw [h.2.mem_iff]
  exact List.mem_range'_1

theorem Permutation.IsValid.get_eq_permFun {p : Permutation} (h : p.IsValid) {k : Nat}
    (hk1 : 1 ≤ k) (hk2 : k < 1 + p.numLetters) :
    dictGet p.permutation k = some (Permutation.permFun p k) := by
  have hs : (dictGet p.permutation k).isSome :=
    dictGet_isSome_iff.mpr (h.mem_keys_iff.mpr ⟨hk1, hk2⟩)
  unfold Permutation.permFun
  cases hval : dictGet p.permutation k with
  | none => rw [hval] at hs; simp at hs
  | some v => rfl

theorem Permutation.IsValid.permFun_bounds {p : Permutation} (h : p.IsValid) {k : Nat}
    (hk1 : 1 ≤ k) (hk2 : k < 1 + p.numLetters) :
    1 ≤ Permutation.permFun p k ∧ Permutation.permFun p k < 1 + p.numLetters := by
  have hmem : (k, Permutation.permFun p k) ∈ p.permutation :=
    dictGet_mem (h.get_eq_permFun hk1 hk2)
  have hv : Permutation.permFun p k ∈ dictValues p.permutation :=
    List.mem_map.mpr ⟨_, hmem, rfl⟩
  exact h.mem_values_iff.mp hv

theorem Permutation.IsValid.permFun_inj {p : Permutation} (h : p.IsValid) {k l : Nat}
    (hk1 : 1 ≤ k) (hk2 : k < 1 + p.numLetters)
    (hl1 : 1 ≤ l) (hl2 : l < 1 + p.numLetters)
    (heq : Permutation.permFun p k = Permutation.permFun p l) : k = l := by
  have hmk : (k, Permutation.permFun p k) ∈ p.permutation :=
    dictGet_mem (h.get_eq_permFun hk1 hk2)
  have hml : (l, Permutation.permFun p l) ∈ p.permutation :=
    dictGet_mem (h.get_eq_permFun hl1 hl2)
  have hnd : (p.permutation.map (fun q : Nat × Nat => q.2)).Nodup := h.values_nodup
  have := List.inj_on_of_nodup_map hnd hmk hml (by simpa using heq)
  exact congrArg Prod.fst this

theorem Permutation.IsValid.exists_preimage {p : Permutation} (h : p.IsValid) {v : Nat}
    (hv1 : 1 ≤ v) (hv2 : v < 1 + p.numLetters) :
    ∃ k, (1 ≤ k ∧ k < 1 + p.numLetters) ∧ dictGet p.permutation k = some v := by
  have hvmem : v ∈ dictValues p.permutation := h.mem_values_iff.mpr ⟨hv1, hv2⟩
  obtain ⟨q, hq, hqv⟩ := List.mem_map.mp hvmem
  refine ⟨q.1, ?_, ?_⟩
  · exact h.mem_keys_iff.mp (List.mem_map.mpr ⟨q, hq, rfl⟩)
  · have hqpair : (q.1, v) ∈ p.permutation := by
      rw [← hqv]
      simpa using hq
    exact dictGet_of_nodup_mem h.keys_nodup hqpair

/-! ### Composition of valid permutations (claims C3, C4) -/

theorem mapM_option_eq_some {α β : Type} (l : List α) (F : α → Option β) (G : α → β)
    (h : ∀ x ∈ l, F x = some (G x)) : l.mapM F = some (l.map G) := by
  induction l with
  | nil => rfl
  | cons x xs ih =>
    rw [List.mapM_cons, h x (List.mem_cons_self x xs),
      ih (fun y hy => h y (List.mem_cons_of_mem x hy))]
    rfl

theorem mul_eq_map_of_represents {a b : Permutation} {n : Nat} (hn : a.numLetters = n)
    (fa fb : Nat → Nat)
    (hb : ∀ i, 1 ≤ i → i < 1 + n →
      dictGet b.permutation i = some (fb i) ∧ 1 ≤ fb i ∧ fb i < 1 + n)
    (ha : ∀ j, 1 ≤ j → j < 1 + n → dictGet a.permutation j = some (fa j)) :
    Permutation.mul a b = some ⟨(List.range' 1 n).map (fun i => (i, fa (fb i)))⟩ := by
  unfold Permutation.mul
  rw [hn]
  rw [mapM_option_eq_some (List.range' 1 n) _ (fun i => (i, fa (fb i))) ?hall]
  · rfl
  case hall =>
    intro i hi
    have hi' := List.mem_range'_1.mp hi
    obtain ⟨hbg, hb1, hb2⟩ := hb i hi'.1 hi'.2
    have hag := ha (fb i) hb1 hb2
    show (dictGet b.permutation i).bind
      (fun j => (dictGet a.permutation j).bind (fun v => some (i, v))) =
        some (i, fa (fb i))
    rw [hbg, Option.some_bind, hag, Option.some_bind]

/-- C3: for valid permutations `a`, `b` of equal degree `n`, the
composition `a * b` succeeds and is the permutation mapping each
`i ∈ {1..n}` to `a[b[i]]` (b applied first). -/
theorem C3_composition (a b : Permutation) (n : Nat) (ha : a.IsValid) (hb : b.IsValid)
    (hna : a.numLetters = n) (hnb : b.numLetters = n) :
    ∃ c, Permutation.mul a b = some c ∧ c.numLetters = n ∧
      ∀ i, 1 ≤ i → i ≤ n →
        dictGet c.permutation i =
          (dictGet b.permutation i).bind (fun j => dictGet a.permutation j) := by
  have hbrep : ∀ i, 1 ≤ i → i < 1 + n →
      dictGet b.permutation i = some (Permutation.permFun b i) ∧
        1 ≤ Permutation.permFun b i ∧ Permutation.permFun b i < 1 + n := by
    intro i h1 h2
    rw [← hnb] at h2
    have hbd := hb.permFun_bounds h1 h2
    exact ⟨hb.get_eq_permFun h1 h2, hbd.1, hnb ▸ hbd.2⟩
  have harep : ∀ j, 1 ≤ j → j < 1 + n →
      dictGet a.permutation j = some (Permutation.permFun a j) := by
    intro j h1 h2
    rw [← hna] at h2
    exact ha.get_eq_permFun h1 h2
  refine ⟨⟨(List.range' 1 n).map
      (fun i => (i, Permutation.permFun a (Permutation.permFun b i)))⟩,
    mul_eq_map_of_represents hna _ _ hbrep harep, by simp [Permutation.numLetters], ?_⟩
  intro i h1 h2
  have h2' : i < 1 + n := by omega
  rw [dictGet_map_pairs, if_pos (List.mem_range'_1.mpr ⟨h1, h2'⟩)]
  obtain ⟨hbg, hb1, hb2⟩ := hbrep i h1 h2'
  rw [hbg, Option.some_bind, harep _ hb1 hb2]

/-- Witness for C3 at concrete valid permutations. -/
theorem C3_witness :
    ∃ c, Permutation.mul ⟨[(1, 2), (2, 3), (3, 1)]⟩ ⟨[(1, 2), (2, 1), (3, 3)]⟩ = some c ∧
      c.numLetters = 3 ∧
      ∀ i, 1 ≤ i → i ≤ 3 →
        dictGet c.permutation i =
          (dictGet (⟨[(1, 2), (2, 1), (3, 3)]⟩ : Permutation).permutation i).bind
            (fun j => dictGet (⟨[(1, 2), (2, 3), (3, 1)]⟩ : Permutation).permutation j) :=
  C3_composition ⟨[(1, 2), (2, 3), (3, 1)]⟩ ⟨[(1, 2), (2, 1), (3, 3)]⟩ 3
    (by decide) (by decide) (by decide) (by decide)

theorem Permutation.IsValid.inv_permutation_eq {p : Permutation} (h : p.IsValid) :
    (Permutation.inv p).permutation = p.permutation.map (fun q => (q.2, q.1)) := by
  have hswapnd : (dictKeys (p.permutation.map (fun q : Nat × Nat => (q.2, q.1)))).Nodup := by
    have heq : dictKeys (p.permutation.map (fun q : Nat × Nat => (q.2, q.1))) =
        dictValues p.permutation := by
      unfold dictKeys dictValues
      rw [List.map_map]
      rfl
    rw [heq]
    exact h.values_nodup
  exact dictOfPairs_of_nodup hswapnd

/-- C4: for every valid permutation `p` of degree `n`, `p * inverse(p)` is
the identity permutation of degree `n`, and `p ** 0` is the identity
permutation of degree `n`. -/
theorem C4_inverse_and_pow_zero (p : Permutation) (h : p.IsValid) :
    Permutation.mul p (Permutation.inv p) = some (Permutation.identity p.numLetters) ∧
    Permutation.pow p 0 = some (Permutation.identity p.numLetters) := by
  constructor
  · have hinveq := h.inv_permutation_eq
    have hbrep : ∀ i, 1 ≤ i → i < 1 + p.numLetters →
        dictGet (Permutation.inv p).permutation i =
          some (Permutation.permFun (Permutation.inv p) i) ∧
          1 ≤ Permutation.permFun (Permutation.inv p) i ∧
          Permutation.permFun (Permutation.inv p) i < 1 + p.numLetters ∧
          dictGet p.permutation (Permutation.permFun (Permutation.inv p) i) = some i := by
      intro i h1 h2
      obtain ⟨k, hkb, hkget⟩ := h.exists_preimage h1 h2
      have hswap : (i, k) ∈ (Permutation.inv p).permutation := by
        rw [hinveq]
        exact List.mem_map.mpr ⟨(k, i), dictGet_mem hkget, rfl⟩
      have hinvnd : (dictKeys (Permutation.inv p).permutation).Nodup := by
        rw [hinveq]
        have heq : dictKeys (p.permutation.map (fun q : Nat × Nat => (q.2, q.1))) =
            dictValues p.permutation := by
          unfold dictKeys dictValues
          rw [List.map_map]
          rfl
        rw [heq]
        exact h.values_nodup
      have hgetinv : dictGet (Permutation.inv p).permutation i = some k :=
        dictGet_of_nodup_mem hinvnd hswap
      have hfk : Permutation.permFun (Permutation.inv p) i = k := by
        unfold Permutation.permFun
        rw [hgetinv]
        rfl
      rw [hfk]
      exact ⟨hgetinv, hkb.1, hkb.2, hkget⟩
    have harep : ∀ j, 1 ≤ j → j < 1 + p.numLetters →
        dictGet p.permutation j = some (Permutation.permFun p j) := by
      intro j h1 h2
      exact h.get_eq_permFun h1 h2
    have hmul := mul_eq_map_of_represents rfl (Permutation.permFun p)
      (Permutation.permFun (Permutation.inv p))
      (fun i h1 h2 => ⟨(hbrep i h1 h2).1, (hbrep i h1 h2).2.1, (hbrep i h1 h2).2.2.1⟩)
      harep
    rw [hmul]
    congr 1
    unfold Permutation.identity
    congr 1
    apply List.map_congr_left
    intro i hi
    have hi' := List.mem_range'_1.mp hi
    obtain ⟨_, hb1, hb2, hback⟩ := hbrep i hi'.1 hi'.2
    have hii : Permutation.permFun p (Permutation.permFun (Permutation.inv p) i) = i :=
      permFun_eq_of_get hback
    show (i, Permutation.permFun p (Permutation.permFun (Permutation.inv p) i)) = (i, i)
    rw [hii]
  · unfold Permutation.pow
    rw [if_pos rfl]

/-- Witness for C4 at a concrete valid permutation. -/
theorem C4_witness :
    Permutation.mul ⟨[(1, 2), (2, 3), (3, 1), (4, 4)]⟩
        (Permutation.inv ⟨[(1, 2), (2, 3), (3, 1), (4, 4)]⟩) =
      some (Permutation.identity
        (⟨[(1, 2), (2, 3), (3, 1), (4, 4)]⟩ : Permutation).numLetters) ∧
    Permutation.pow ⟨[(1, 2), (2, 3), (3, 1), (4, 4)]⟩ 0 =
      some (Permutation.identity
        (⟨[(1, 2), (2, 3), (3, 1), (4, 4)]⟩ : Permutation).numLetters) :=
  C4_inverse_and_pow_zero ⟨[(1, 2), (2, 3), (3, 1), (4, 4)]⟩ (by decide)

/-! ### Orbit structure of a valid permutation (shared by claims C5 and C8) -/

theorem iter_mem {p : Permutation} (h : p.IsValid) {k : Nat}
    (hk1 : 1 ≤ k) (hk2 : k < 1 + p.numLetters) (j : Nat) :
    1 ≤ (Permutation.permFun p)^[j] k ∧
      (Permutation.permFun p)^[j] k < 1 + p.numLetters := by
  induction j with
  | zero => exact ⟨hk1, hk2⟩
  | succ j ih =>
    rw [Function.iterate_succ_apply']
    exact h.permFun_bounds ih.1 ih.2

theorem iter_cancel {p : Permutation} (h : p.IsValid) {k : Nat}
    (hk1 : 1 ≤ k) (hk2 : k < 1 + p.numLetters) :
    ∀ a b, a ≤ b →
      (Permutation.permFun p)^[a] k = (Permutation.permFun p)^[b] k →
      (Permutation.permFun p)^[b - a] k = k := by
  intro a
  induction a with
  | zero =>
    intro b _ hab
    simpa using hab.symm
  | succ a ih =>
    intro b hle heq
    cases b with
    | zero => omega
    | succ b =>
      rw [Function.iterate_succ_apply'] at heq
      rw [Function.iterate_succ_apply'] at heq
      have hab : (Permutation.permFun p)^[a] k = (Permutation.permFun p)^[b] k :=
        h.permFun_inj (iter_mem h hk1 hk2 a).1 (iter_mem h hk1 hk2 a).2
          (iter_mem h hk1 hk2 b).1 (iter_mem h hk1 hk2 b).2 heq
      have hres := ih b (by omega) hab
      simpa [Nat.succ_sub_succ] using hres

theorem period_package {p : Permutation} (h : p.IsValid) {k : Nat}
    (hk1 : 1 ≤ k) (hk2 : k < 1 + p.numLetters) :
    ∃ d, 0 < d ∧ d ≤ p.numLetters ∧ (Permutation.permFun p)^[d] k = k ∧
      (∀ i j, i < j → j < d →
        (Permutation.permFun p)^[i] k ≠ (Permutation.permFun p)^[j] k) ∧
      (∀ m, (Permutation.permFun p)^[m] k = (Permutation.permFun p)^[m % d] k) := by
  classical
  have hmaps : ∀ j ∈ Finset.range (p.numLetters + 1),
      (Permutation.permFun p)^[j] k ∈ Finset.Icc 1 p.numLetters := by
    intro j _
    have hj := iter_mem h hk1 hk2 j
    rw [Finset.mem_Icc]
    omega
  have hcard : (Finset.Icc 1 p.numLetters).card <
      (Finset.range (p.numLetters + 1)).card := by
    simp [Nat.card_Icc]
  obtain ⟨a, ha, b, hb, hne, heq⟩ :=
    Finset.exists_ne_map_eq_of_card_lt_of_maps_to hcard hmaps
  rw [Finset.mem_range] at ha hb
  have hex : ∃ m, 0 < m ∧ (Permutation.permFun p)^[m] k = k := by
    rcases Nat.lt_or_ge a b with hab | hab
    · exact ⟨b - a, by omega, iter_cancel h hk1 hk2 a b (by omega) heq⟩
    · have hba : b < a := by omega
      exact ⟨a - b, by omega, iter_cancel h hk1 hk2 b a (by omega) heq.symm⟩
  have hspec := Nat.find_spec hex
  refine ⟨Nat.find hex, hspec.1, ?_, hspec.2, ?_, ?_⟩
  · rcases Nat.lt_or_ge a b with hab | hab
    · exact le_trans
        (Nat.find_le ⟨by omega, iter_cancel h hk1 hk2 a b (by omega) heq⟩)
        (by omega)
    · have hba : b < a := by omega
      exact le_trans
        (Nat.find_le ⟨by omega, iter_cancel h hk1 hk2 b a (by omega) heq.symm⟩)
        (by omega)
  · intro i j hij hjd heqij
    have hcan := iter_cancel h hk1 hk2 i j (le_of_lt hij) heqij
    exact Nat.find_min hex (by omega) ⟨by omega, hcan⟩
  · intro m
    induction m using Nat.strong_induction_on with
    | _ m ihm =>
      by_cases hmd : m < Nat.find hex
      · rw [Nat.mod_eq_of_lt hmd]
      · push_neg at hmd
        have h1 : m = (m - Nat.find hex) + Nat.find hex := by omega
        rw [Nat.mod_eq_sub_mod hmd]
        conv_lhs => rw [h1]
        rw [Function.iterate_add_apply, hspec.2]
        exact ihm (m - Nat.find hex) (by omega)

theorem findCycleAux_eq {p : Permutation} (h : p.IsValid) {k d : Nat}
    (hk1 : 1 ≤ k) (hk2 : k < 1 + p.numLetters)
    (hper : (Permutation.permFun p)^[d] k = k)
    (hdist : ∀ i j, i < j → j < d →
      (Permutation.permFun p)^[i] k ≠ (Permutation.permFun p)^[j] k) :
    ∀ fuel j C, j < d → d - j ≤ fuel →
      (∀ i, j ≤ i → i < d → (Permutation.permFun p)^[i] k ∉ dictKeys C) →
      findCycleAux p.permutation k ((Permutation.permFun p)^[j] k) C fuel =
        some (C ++ (List.range' j (d - j)).map
          (fun i => ((Permutation.permFun p)^[i] k,
            (Permutation.permFun p)^[i+1] k))) := by
  intro fuel
  induction fuel with
  | zero =>
    intro j C hj hfuel
    omega
  | succ fuel ih =>
    intro j C hjd hfuel hfresh
    have hjmem := iter_mem h hk1 hk2 j
    have hget : dictGet p.permutation ((Permutation.permFun p)^[j] k) =
        some ((Permutation.permFun p)^[j+1] k) := by
      rw [Function.iterate_succ_apply']
      exact h.get_eq_permFun hjmem.1 hjmem.2
    simp only [findCycleAux, hget]
    by_cases hjd1 : j + 1 = d
    · have hbeq : ((Permutation.permFun p)^[j+1] k == k) = true := by
        rw [beq_iff_eq, hjd1, hper]
      rw [if_pos hbeq]
      rw [dictInsert_fresh (hfresh j (le_refl j) hjd)]
      rw [show d - j = 1 by omega]
      rfl
    · have hbeq : ¬(((Permutation.permFun p)^[j+1] k == k) = true) := by
        rw [beq_iff_eq]
        have hne := hdist 0 (j+1) (by omega) (by omega)
        simpa using fun hc => hne hc.symm
      rw [if_neg hbeq]
      rw [dictInsert_fresh (hfresh j (le_refl j) hjd)]
      rw [show (Permutation.permFun p)^[j+1] k =
        (Permutation.permFun p)^[j+1] k from rfl]
      have ihres := ih (j+1)
        (C ++ [((Permutation.permFun p)^[j] k, (Permutation.permFun p)^[j+1] k)])
        (by omega) (by omega) ?fresh2
      · rw [ihres]
        rw [List.append_assoc]
        congr 2
        rw [show d - j = (d - (j+1)) + 1 by omega, List.range'_succ]
        rfl
      case fresh2 =>
        intro i hi1 hi2
        rw [dictKeys_append]
        simp only [List.mem_append, not_or]
        refine ⟨hfresh i (by omega) hi2, ?_⟩
        intro hmem
        have hieq : (Permutation.permFun p)^[i] k = (Permutation.permFun p)^[j] k := by
          simpa [dictKeys] using hmem
        exact hdist j i (by omega) hi2 hieq.symm

theorem cycle_facts {p : Permutation} (h : p.IsValid) {k : Nat}
    (hk1 : 1 ≤ k) (hk2 : k < 1 + p.numLetters) :
    ∃ (C : Dict) (d : Nat),
      Permutation.find_cycle_dict p k = some C ∧
      0 < d ∧ d ≤ p.numLetters ∧ C.length = d ∧
      (Permutation.permFun p)^[d] k = k ∧
      (∀ i j, i < j → j < d →
        (Permutation.permFun p)^[i] k ≠ (Permutation.permFun p)^[j] k) ∧
      dictKeys C = (List.range d).map (fun i => (Permutation.permFun p)^[i] k) ∧
      (dictKeys C).Nodup ∧
      k ∈ dictKeys C ∧
      (∀ x ∈ dictKeys C, 1 ≤ x ∧ x < 1 + p.numLetters) ∧
      (∀ x ∈ dictKeys C, Permutation.permFun p x ∈ dictKeys C) ∧
      (∀ x ∈ dictKeys C, dictGet C x = some (Permutation.permFun p x)) ∧
      (∀ x ∈ dictKeys C, ∃ j, (Permutation.permFun p)^[j] x = k) ∧
      (∀ j, (Permutation.permFun p)^[j] k ∈ dictKeys C) ∧
      (1 < C.length ↔ Permutation.permFun p k ≠ k) ∧
      (∀ x ∈ dictKeys C, Permutation.permFun p x ≠ x → 1 < C.length) := by
  obtain ⟨d, hd0, hdn, hper, hdist, hmod⟩ := period_package h hk1 hk2
  refine ⟨(List.range d).map
    (fun i => ((Permutation.permFun p)^[i] k, (Permutation.permFun p)^[i+1] k)),
    d, ?_, hd0, hdn, by simp, hper, hdist, ?_, ?_, ?_, ?_, ?_, ?_, ?_, ?_, ?_, ?_⟩
  case _ =>
    unfold Permutation.find_cycle_dict
    have heq := findCycleAux_eq h hk1 hk2 hper hdist (p.numLetters + 1) 0 []
      hd0 (by omega) (by intro i _ _; simp [dictKeys])
    simpa [List.range_eq_range'] using heq
  case _ =>
    unfold dictKeys
    rw [List.map_map]
    rfl
  all_goals
    have hkeys : dictKeys ((List.range d).map
        (fun i => ((Permutation.permFun p)^[i] k, (Permutation.permFun p)^[i+1] k))) =
        (List.range d).map (fun i => (Permutation.permFun p)^[i] k) := by
      unfold dictKeys
      rw [List.map_map]
      rfl
  all_goals
    have hpl : (List.range d).Pairwise
        (fun a b => (Permutation.permFun p)^[a] k ≠ (Permutation.permFun p)^[b] k) := by
      refine (List.pairwise_lt_range d).imp_of_mem ?_
      intro a b ha hb hab
      exact hdist a b hab (List.mem_range.mp hb)
  case _ =>
    rw [hkeys]
    exact List.Pairwise.map _ (fun a b hab => hab) hpl
  case _ =>
    rw [hkeys]
    exact List.mem_map.mpr ⟨0, List.mem_range.mpr hd0, rfl⟩
  case _ =>
    rw [hkeys]
    intro x hx
    obtain ⟨i, _, hix⟩ := List.mem_map.mp hx
    rw [← hix]
    exact iter_mem h hk1 hk2 i
  case _ =>
    rw [hkeys]
    intro x hx
    obtain ⟨i, hi, hix⟩ := List.mem_map.mp hx
    rw [← hix]
    have hstep : Permutation.permFun p ((Permutation.permFun p)^[i] k) =
        (Permutation.permFun p)^[i+1] k := (Function.iterate_succ_apply' _ i k).symm
    rw [hstep, hmod (i+1)]
    exact List.mem_map.mpr ⟨(i+1) % d, List.mem_range.mpr (Nat.mod_lt _ hd0), rfl⟩
  case _ =>
    intro x hx
    rw [hkeys] at hx
    obtain ⟨i, hi, hix⟩ := List.mem_map.mp hx
    have hnd : (dictKeys ((List.range d).map
        (fun i => ((Permutation.permFun p)^[i] k, (Permutation.permFun p)^[i+1] k)))).Nodup := by
      rw [hkeys]
      exact List.Pairwise.map _ (fun a b hab => hab) hpl
    have hpair : (x, (Permutation.permFun p)^[i+1] k) ∈ (List.range d).map
        (fun i => ((Permutation.permFun p)^[i] k, (Permutation.permFun p)^[i+1] k)) := by
      rw [← hix]
      exact List.mem_map.mpr ⟨i, hi, rfl⟩
    rw [dictGet_of_nodup_mem hnd hpair]
    congr 1
    rw [← hix]
    exact Function.iterate_succ_apply' _ i k
  case _ =>
    rw [hkeys]
    intro x hx
    obtain ⟨i, hi, hix⟩ := List.mem_map.mp hx
    refine ⟨d - i, ?_⟩
    rw [← hix, ← Function.iterate_add_apply]
    rw [show d - i + i = d by
      have := List.mem_range.mp hi
      omega]
    exact hper
  case _ =>
    rw [hkeys]
    intro j
    rw [hmod j]
    exact List.mem_map.mpr ⟨j % d, List.mem_range.mpr (Nat.mod_lt _ hd0), rfl⟩
  case _ =>
    rw [List.length_map, List.length_range]
    constructor
    · intro hd1 hc
      exact hdist 0 1 (by omega) (by omega) (by simpa using hc.symm)
    · intro hmoved
      by_contra hnle
      have hd1 : d = 1 := by omega
      rw [hd1] at hper
      exact hmoved (by simpa using hper)
  case _ =>
    intro x hx hmoved
    rw [List.length_map, List.length_range]
    by_contra hnle
    have hd1 : d = 1 := by omega
    rw [hkeys, hd1] at hx
    simp at hx
    rw [hd1] at hper
    rw [hx] at hmoved
    exact hmoved (by simpa using hper)

theorem compl_closed_iter {p : Permutation} (h : p.IsValid) {upd : List Nat}
    (hcc : ∀ x, 1 ≤ x → x < 1 + p.numLetters → x ∉ upd →
      Permutation.permFun p x ∉ upd)
    {x : Nat} (hx1 : 1 ≤ x) (hx2 : x < 1 + p.numLetters) (hxn : x ∉ upd) :
    ∀ j, (Permutation.permFun p)^[j] x ∉ upd := by
  intro j
  induction j with
  | zero => simpa using hxn
  | succ j ih =>
    rw [Function.iterate_succ_apply']
    exact hcc _ (iter_mem h hx1 hx2 j).1 (iter_mem h hx1 hx2 j).2 ih

theorem pySetList_of_valid {p : Permutation} (h : p.IsValid) :
    pySetList (dictKeys p.permutation) = List.range' 1 p.numLetters := by
  unfold pySetList
  rw [List.dedup_eq_self.mpr h.keys_nodup]
  have hsorted1 : List.Sorted (fun a b : Nat => a ≤ b)
      (List.insertionSort (fun a b : Nat => a ≤ b) (dictKeys p.permutation)) :=
    List.sorted_insertionSort _ _
  have hsorted2 : List.Sorted (fun a b : Nat => a ≤ b)
      (List.range' 1 p.numLetters) :=
    (List.pairwise_lt_range' 1 _).imp le_of_lt
  exact List.eq_of_perm_of_sorted
    ((List.perm_insertionSort _ _).trans h.1) hsorted1 hsorted2

theorem cycle_perm_build {p : Permutation} (h : p.IsValid) {C : Dict}
    (hknd : (dictKeys C).Nodup)
    (hbounds : ∀ x ∈ dictKeys C, 1 ≤ x ∧ x < 1 + p.numLetters)
    (hget : ∀ x ∈ dictKeys C, dictGet C x = some (Permutation.permFun p x)) :
    (Permutation.mk (((pySetList (dictKeys p.permutation)).filter
      (fun i => !((dictKeys C).contains i))).foldl
        (fun d i => dictInsert d i i) C)).numLetters = p.numLetters ∧
    ∀ i, 1 ≤ i → i < 1 + p.numLetters →
      dictGet (Permutation.mk (((pySetList (dictKeys p.permutation)).filter
        (fun i => !((dictKeys C).contains i))).foldl
          (fun d i => dictInsert d i i) C)).permutation i =
        some (if i ∈ dictKeys C then Permutation.permFun p i else i) := by
  rw [pySetList_of_valid h]
  have hrestnd : ((List.range' 1 p.numLetters).filter
      (fun i => !((dictKeys C).contains i))).Nodup :=
    (List.nodup_range' 1 p.numLetters).filter _
  have hkeysmap : dictKeys (((List.range' 1 p.numLetters).filter
      (fun i => !((dictKeys C).contains i))).map (fun i => ((i, i) : Nat × Nat))) =
      (List.range' 1 p.numLetters).filter (fun i => !((dictKeys C).contains i)) := by
    unfold dictKeys
    rw [List.map_map]
    rw [show ((fun q : Nat × Nat => q.1) ∘ fun i : Nat => (i, i)) = fun i : Nat => i from rfl]
    simp
  have hfoldl : ((List.range' 1 p.numLetters).filter
      (fun i => !((dictKeys C).contains i))).foldl (fun d i => dictInsert d i i) C =
      C ++ ((List.range' 1 p.numLetters).filter
        (fun i => !((dictKeys C).contains i))).map (fun i => (i, i)) := by
    have h1 := List.foldl_map (fun i => ((i, i) : Nat × Nat))
      (fun (d : Dict) (q : Nat × Nat) => dictInsert d q.1 q.2)
      ((List.range' 1 p.numLetters).filter (fun i => !((dictKeys C).contains i))) C
    rw [← h1]
    apply foldl_dictInsert_fresh
    · rw [hkeysmap]
      exact hrestnd
    · rw [hkeysmap]
      intro x hx
      rw [List.mem_filter] at hx
      intro hc
      have hcont : (dictKeys C).contains x = true := by simpa using hc
      rw [hcont] at hx
      simp at hx
  constructor
  · show (((List.range' 1 p.numLetters).filter
      (fun i => !((dictKeys C).contains i))).foldl
        (fun d i => dictInsert d i i) C).length = p.numLetters
    rw [hfoldl]
    have hCperm : (dictKeys C).Perm ((List.range' 1 p.numLetters).filter
        (fun i => (dictKeys C).contains i)) := by
      refine (List.perm_ext_iff_of_nodup hknd
        ((List.nodup_range' 1 p.numLetters).filter _)).mpr ?_
      intro a
      constructor
      · intro ha
        rw [List.mem_filter]
        refine ⟨?_, by simpa using ha⟩
        have hb := hbounds a ha
        rw [List.mem_range'_1]
        omega
      · intro ha
        rw [List.mem_filter] at ha
        simpa using ha.2
    have hperm : (dictKeys C ++ (List.range' 1 p.numLetters).filter
        (fun i => !((dictKeys C).contains i))).Perm (List.range' 1 p.numLetters) :=
      (hCperm.append_right _).trans
        (List.filter_append_perm (fun i => (dictKeys C).contains i) _)
    have hlen := hperm.length_eq
    rw [List.length_append] at hlen
    rw [show (dictKeys C).length = C.length from List.length_map _ _] at hlen
    rw [List.length_append, List.length_map]
    rw [List.length_range'] at hlen
    omega
  · intro i hi1 hi2
    show dictGet (((List.range' 1 p.numLetters).filter
      (fun i => !((dictKeys C).contains i))).foldl
        (fun d i => dictInsert d i i) C) i = _
    rw [hfoldl, dictGet_append]
    by_cases hic : i ∈ dictKeys C
    · rw [if_pos hic, if_pos hic]
      exact hget i hic
    · rw [if_neg hic, if_neg hic]
      rw [dictGet_map_pairs]
      rw [if_pos]
      rw [List.mem_filter]
      refine ⟨by rw [List.mem_range'_1]; omega, ?_⟩
      simpa using hic

theorem cycleDecompAux_cons_mem {p : Permutation} {k : Nat} {ks upd : List Nat}
    {acc : List Permutation} {C : Dict}
    (hk : k ∈ upd) (hfc : Permutation.find_cycle_dict p k = some C) :
    cycleDecompAux p (k :: ks) upd acc =
      cycleDecompAux p ks (upd.filter (fun x => !((dictKeys C).contains x)))
        (if C.length > 1 then
          acc ++ [⟨((pySetList (dictKeys p.permutation)).filter
            (fun i => !((dictKeys C).contains i))).foldl
              (fun d i => dictInsert d i i) C⟩]
         else acc) := by
  simp only [cycleDecompAux]
  rw [if_pos (show upd.contains k = true by simpa using hk), hfc]

theorem cycleDecompAux_cons_not_mem {p : Permutation} {k : Nat} {ks upd : List Nat}
    {acc : List Permutation} (hk : k ∉ upd) :
    cycleDecompAux p (k :: ks) upd acc = cycleDecompAux p ks upd acc := by
  simp only [cycleDecompAux]
  rw [if_neg (show ¬(upd.contains k = true) by simpa using hk)]

theorem cycleDecompAux_spec {p : Permutation} (h : p.IsValid) :
    ∀ (ks upd : List Nat) (acc : List Permutation),
      (∀ x ∈ upd, 1 ≤ x ∧ x < 1 + p.numLetters) →
      (∀ x ∈ upd, x ∈ ks) →
      (∀ x, 1 ≤ x → x < 1 + p.numLetters → x ∉ upd →
        Permutation.permFun p x ∉ upd) →
      ∃ (new : List Permutation) (orbs : List (List Nat)),
        cycleDecompAux p ks upd acc = some (acc ++ new) ∧
        List.Forall₂ (fun (c : Permutation) (O : List Nat) =>
          c.numLetters = p.numLetters ∧
          ∀ i, 1 ≤ i → i < 1 + p.numLetters →
            dictGet c.permutation i =
              some (if i ∈ O then Permutation.permFun p i else i)) new orbs ∧
        (∀ O ∈ orbs, ∀ x ∈ O, (1 ≤ x ∧ x < 1 + p.numLetters) ∧
          Permutation.permFun p x ∈ O ∧ x ∈ upd) ∧
        List.Pairwise (fun O O' => ∀ x ∈ O, x ∉ O') orbs ∧
        (∀ x ∈ upd, Permutation.permFun p x ≠ x → ∃ O ∈ orbs, x ∈ O) ∧
        (∀ O ∈ orbs, ∃ x ∈ O, Permutation.permFun p x ≠ x) := by
  intro ks
  induction ks with
  | nil =>
    intro upd acc hub hsub hcc
    refine ⟨[], [], by simp [cycleDecompAux], List.Forall₂.nil, by simp,
      List.Pairwise.nil, ?_, by simp⟩
    intro x hx hmoved
    exact absurd (hsub x hx) (List.not_mem_nil x)
  | cons k ks ih =>
    intro upd acc hub hsub hcc
    by_cases hkupd : k ∈ upd
    · have hk1 := (hub k hkupd).1
      have hk2 := (hub k hkupd).2
      obtain ⟨C, d, hfc, hd0, hdn, hClen, hper, hdist, hCkeys, hCnd, hkC, hCb,
        hCclose, hCget, hCreach, hCreachin, hCiff, hCmoved⟩ := cycle_facts h hk1 hk2
      have hOsub : ∀ x ∈ dictKeys C, x ∈ upd := by
        intro x hx
        by_contra hxn
        obtain ⟨j, hj⟩ := hCreach x hx
        have hiter := compl_closed_iter h hcc (hCb x hx).1 (hCb x hx).2 hxn j
        rw [hj] at hiter
        exact hiter hkupd
      have hupd'mem : ∀ x, x ∈ upd.filter (fun x => !((dictKeys C).contains x)) ↔
          x ∈ upd ∧ x ∉ dictKeys C := by
        intro x
        rw [List.mem_filter]
        constructor
        · rintro ⟨h1, h2⟩
          refine ⟨h1, ?_⟩
          intro hc
          have hcont : (dictKeys C).contains x = true := by simpa using hc
          rw [hcont] at h2
          simp at h2
        · rintro ⟨h1, h2⟩
          exact ⟨h1, by simpa using h2⟩
      have hub' : ∀ x ∈ upd.filter (fun x => !((dictKeys C).contains x)),
          1 ≤ x ∧ x < 1 + p.numLetters :=
        fun x hx => hub x ((hupd'mem x).mp hx).1
      have hsub' : ∀ x ∈ upd.filter (fun x => !((dictKeys C).contains x)), x ∈ ks := by
        intro x hx
        obtain ⟨hxu, hxC⟩ := (hupd'mem x).mp hx
        rcases List.mem_cons.mp (hsub x hxu) with hxk | hxk
        · subst hxk
          exact absurd hkC hxC
        · exact hxk
      have hcc' : ∀ x, 1 ≤ x → x < 1 + p.numLetters →
          x ∉ upd.filter (fun x => !((dictKeys C).contains x)) →
          Permutation.permFun p x ∉ upd.filter (fun x => !((dictKeys C).contains x)) := by
        intro x hx1 hx2 hxn hcontra
        obtain ⟨hσu, hσC⟩ := (hupd'mem _).mp hcontra
        by_cases hxu : x ∈ upd
        · have hxC : x ∈ dictKeys C := by
            by_contra hxC
            exact hxn ((hupd'mem x).mpr ⟨hxu, hxC⟩)
          exact hσC (hCclose x hxC)
        · exact (hcc x hx1 hx2 hxu) hσu
      by_cases hlen : C.length > 1
      · -- non-trivial cycle: one full-degree cycle permutation is recorded
        obtain ⟨hcn, hcget⟩ := cycle_perm_build h hCnd hCb hCget
        obtain ⟨new', orbs', hres', hfa', horb', hpw', hcov', hmov'⟩ :=
          ih (upd.filter (fun x => !((dictKeys C).contains x)))
            (acc ++ [⟨((pySetList (dictKeys p.permutation)).filter
              (fun i => !((dictKeys C).contains i))).foldl
                (fun d i => dictInsert d i i) C⟩]) hub' hsub' hcc'
        refine ⟨(⟨((pySetList (dictKeys p.permutation)).filter
            (fun i => !((dictKeys C).contains i))).foldl
              (fun d i => dictInsert d i i) C⟩ : Permutation) :: new',
          dictKeys C :: orbs', ?_, ?_, ?_, ?_, ?_, ?_⟩
        · rw [cycleDecompAux_cons_mem hkupd hfc, if_pos hlen, hres']
          rw [List.append_assoc]
          rfl
        · exact List.Forall₂.cons ⟨hcn, hcget⟩ hfa'
        · intro O hO x hx
          rcases List.mem_cons.mp hO with hO1 | hO1
          · subst hO1
            exact ⟨hCb x hx, hCclose x hx, hOsub x hx⟩
          · have hres := horb' O hO1 x hx
            exact ⟨hres.1, hres.2.1, ((hupd'mem x).mp hres.2.2).1⟩
        · refine List.Pairwise.cons ?_ hpw'
          intro O' hO' x hxC hxO'
          have hxupd' := (horb' O' hO' x hxO').2.2
          exact ((hupd'mem x).mp hxupd').2 hxC
        · intro x hxu hmoved
          by_cases hxC : x ∈ dictKeys C
          · exact ⟨dictKeys C, List.mem_cons_self _ _, hxC⟩
          · obtain ⟨O', hO', hxO'⟩ :=
              hcov' x ((hupd'mem x).mpr ⟨hxu, hxC⟩) hmoved
            exact ⟨O', List.mem_cons_of_mem _ hO', hxO'⟩
        · intro O hO
          rcases List.mem_cons.mp hO with hO1 | hO1
          · subst hO1
            exact ⟨k, hkC, hCiff.mp hlen⟩
          · exact hmov' O hO1
      · -- trivial cycle: nothing recorded; every key of C is a fixed point
        obtain ⟨new', orbs', hres', hfa', horb', hpw', hcov', hmov'⟩ :=
          ih (upd.filter (fun x => !((dictKeys C).contains x))) acc hub' hsub' hcc'
        refine ⟨new', orbs', ?_, hfa', ?_, hpw', ?_, hmov'⟩
        · rw [cycleDecompAux_cons_mem hkupd hfc, if_neg hlen, hres']
        · intro O hO x hx
          have hres := horb' O hO x hx
          exact ⟨hres.1, hres.2.1, ((hupd'mem x).mp hres.2.2).1⟩
        · intro x hxu hmoved
          by_cases hxC : x ∈ dictKeys C
          · exact absurd (hCmoved x hxC hmoved) hlen
          · exact hcov' x ((hupd'mem x).mpr ⟨hxu, hxC⟩) hmoved
    · obtain ⟨new', orbs', hres', hfa', horb', hpw', hcov', hmov'⟩ := ih upd acc hub
        (fun x hx => by
          rcases List.mem_cons.mp (hsub x hx) with hxk | hxk
          · subst hxk
            exact absurd hx hkupd
          · exact hxk) hcc
      exact ⟨new', orbs', by rw [cycleDecompAux_cons_not_mem hkupd]; exact hres',
        hfa', horb', hpw', hcov', hmov'⟩

theorem foldlM_mul_cycles {p : Permutation} (h : p.IsValid) :
    ∀ (cs : List Permutation) (orbs : List (List Nat)) (covered : List Nat)
      (q : Permutation),
      List.Forall₂ (fun (c : Permutation) (O : List Nat) =>
        c.numLetters = p.numLetters ∧
        ∀ i, 1 ≤ i → i < 1 + p.numLetters →
          dictGet c.permutation i =
            some (if i ∈ O then Permutation.permFun p i else i)) cs orbs →
      (∀ O ∈ orbs, ∀ x ∈ O, (1 ≤ x ∧ x < 1 + p.numLetters) ∧
        Permutation.permFun p x ∈ O ∧ x ∉ covered) →
      List.Pairwise (fun O O' => ∀ x ∈ O, x ∉ O') orbs →
      q.permutation = (List.range' 1 p.numLetters).map
        (fun i => (i, if i ∈ covered then Permutation.permFun p i else i)) →
      ∃ r, cs.foldlM (fun a c => Permutation.mul a c) q = some r ∧
        r.permutation = (List.range' 1 p.numLetters).map
          (fun i => (i, if i ∈ covered ++ orbs.flatten
            then Permutation.permFun p i else i)) := by
  intro cs
  induction cs with
  | nil =>
    intro orbs covered q hfa horb hpw hq
    cases hfa
    refine ⟨q, rfl, ?_⟩
    simpa using hq
  | cons c cs ihc =>
    intro orbs covered q hfa horb hpw hq
    cases hfa with
    | cons hhead htail =>
      rename_i O orbs'
      obtain ⟨hcn, hcget⟩ := hhead
      have hqn : q.numLetters = p.numLetters := by
        show q.permutation.length = p.numLetters
        rw [hq]
        simp
      have hOprops := horb O (List.mem_cons_self _ _)
      have hbrep : ∀ i, 1 ≤ i → i < 1 + p.numLetters →
          dictGet c.permutation i =
            some (if i ∈ O then Permutation.permFun p i else i) ∧
          1 ≤ (if i ∈ O then Permutation.permFun p i else i) ∧
          (if i ∈ O then Permutation.permFun p i else i) < 1 + p.numLetters := by
        intro i h1 h2
        refine ⟨hcget i h1 h2, ?_, ?_⟩
        · by_cases hiO : i ∈ O
          · rw [if_pos hiO]
            exact (iter_mem h h1 h2 1).1
          · rw [if_neg hiO]
            exact h1
        · by_cases hiO : i ∈ O
          · rw [if_pos hiO]
            exact (iter_mem h h1 h2 1).2
          · rw [if_neg hiO]
            exact h2
      have harep : ∀ j, 1 ≤ j → j < 1 + p.numLetters →
          dictGet q.permutation j =
            some (if j ∈ covered then Permutation.permFun p j else j) := by
        intro j h1 h2
        rw [hq, dictGet_map_pairs, if_pos (List.mem_range'_1.mpr ⟨h1, h2⟩)]
      have hmul := mul_eq_map_of_represents hqn
        (fun j => if j ∈ covered then Permutation.permFun p j else j)
        (fun i => if i ∈ O then Permutation.permFun p i else i)
        hbrep harep
      have hcanon : ((List.range' 1 p.numLetters).map (fun i => (i,
          if (if i ∈ O then Permutation.permFun p i else i) ∈ covered
          then Permutation.permFun p (if i ∈ O then Permutation.permFun p i else i)
          else (if i ∈ O then Permutation.permFun p i else i)))) =
          (List.range' 1 p.numLetters).map
            (fun i => (i, if i ∈ covered ++ O then Permutation.permFun p i else i)) := by
        apply List.map_congr_left
        intro i hi
        have hi' := List.mem_range'_1.mp hi
        by_cases hiO : i ∈ O
        · have hσO : Permutation.permFun p i ∈ O := (hOprops i hiO).2.1
          have hσnc : Permutation.permFun p i ∉ covered :=
            (hOprops _ hσO).2.2
          rw [if_pos hiO, if_neg hσnc,
            if_pos (List.mem_append.mpr (Or.inr hiO))]
        · rw [if_neg hiO]
          by_cases hic : i ∈ covered
          · rw [if_pos hic, if_pos (List.mem_append.mpr (Or.inl hic))]
          · rw [if_neg hic, if_neg (by
              rw [List.mem_append]
              rintro (hc | hc)
              · exact hic hc
              · exact hiO hc)]
      have horb' : ∀ O' ∈ orbs', ∀ x ∈ O',
          (1 ≤ x ∧ x < 1 + p.numLetters) ∧
          Permutation.permFun p x ∈ O' ∧ x ∉ covered ++ O := by
        intro O' hO' x hx
        have hres := horb O' (List.mem_cons_of_mem _ hO') x hx
        refine ⟨hres.1, hres.2.1, ?_⟩
        rw [List.mem_append]
        rintro (hc | hc)
        · exact hres.2.2 hc
        · exact (List.pairwise_cons.mp hpw).1 O' hO' x hc hx
      obtain ⟨r, hr, hrperm⟩ := ihc orbs' (covered ++ O)
        ⟨(List.range' 1 p.numLetters).map
          (fun i => (i, if i ∈ covered ++ O then Permutation.permFun p i else i))⟩
        htail horb' (List.pairwise_cons.mp hpw).2 rfl
      refine ⟨r, ?_, ?_⟩
      · rw [List.foldlM_cons, hmul]
        simp only [Option.bind_eq_bind, Option.some_bind]
        rw [show (⟨(List.range' 1 p.numLetters).map (fun i => (i,
            if (if i ∈ O then Permutation.permFun p i else i) ∈ covered
            then Permutation.permFun p (if i ∈ O then Permutation.permFun p i else i)
            else (if i ∈ O then Permutation.permFun p i else i)))⟩ : Permutation) =
          ⟨(List.range' 1 p.numLetters).map
            (fun i => (i, if i ∈ covered ++ O
              then Permutation.permFun p i else i))⟩ from
          congrArg Permutation.mk hcanon]
        exact hr
      · rw [hrperm]
        rw [show (covered ++ O) ++ orbs'.flatten =
            covered ++ (O :: orbs').flatten from by
          rw [List.flatten_cons, List.append_assoc]]

theorem forall₂_mem_left {α β : Type} {P : α → β → Prop} :
    ∀ {l : List α} {m : List β}, List.Forall₂ P l m → ∀ a ∈ l, ∃ b ∈ m, P a b := by
  intro l m hf
  induction hf with
  | nil =>
    intro a ha
    exact absurd ha (List.not_mem_nil a)
  | cons hab htail ih =>
    intro x hx
    rcases List.mem_cons.mp hx with h1 | h1
    · subst h1
      exact ⟨_, List.mem_cons_self _ _, hab⟩
    · obtain ⟨b, hb, hPb⟩ := ih x h1
      exact ⟨b, List.mem_cons_of_mem _ hb, hPb⟩

theorem is_identity_permFun {p : Permutation} (h : p.IsValid)
    (hid : Permutation.is_identity p = true) :
    ∀ i, 1 ≤ i → i < 1 + p.numLetters → Permutation.permFun p i = i := by
  intro i h1 h2
  unfold Permutation.is_identity pyDictEq at hid
  rw [Bool.and_eq_true] at hid
  have hall := hid.1
  rw [List.all_eq_true] at hall
  have hget := h.get_eq_permFun h1 h2
  have hmem : (i, Permutation.permFun p i) ∈ p.permutation := dictGet_mem hget
  have hres := hall _ hmem
  rw [beq_iff_eq] at hres
  unfold Permutation.identity at hres
  rw [dictGet_map_pairs, if_pos (List.mem_range'_1.mpr ⟨h1, h2⟩)] at hres
  exact (Option.some.inj hres).symm

/-- C5: for every valid permutation, composing all the full-degree
PermutationElements returned by its cycle decomposition (starting from the
identity) reconstructs the permutation exactly (Python `==`, i.e. mapping
equality); each factor is full-degree; and the decomposition of the
identity is the empty sequence. -/
theorem C5_cycle_decomposition_roundtrip (p : Permutation) (h : p.IsValid) :
    ∃ cycles, Permutation.get_cycle_decomposition p = some cycles ∧
      (∀ c ∈ cycles, c.numLetters = p.numLetters) ∧
      (Permutation.is_identity p = true → cycles = []) ∧
      ∃ q, cycles.foldlM (fun a c => Permutation.mul a c)
          (Permutation.identity p.numLetters) = some q ∧
        Permutation.pyEqB q p = true := by
  have hscan := cycleDecompAux_spec h (pySetList (dictKeys p.permutation))
    (pySetList (dictKeys p.permutation)) []
  rw [pySetList_of_valid h] at hscan
  obtain ⟨new, orbs, hres, hfa, horb, hpw, hcov, hmov⟩ := hscan
    (fun x hx => List.mem_range'_1.mp hx) (fun x hx => hx)
    (fun x hx1 hx2 hxn => absurd (List.mem_range'_1.mpr ⟨hx1, hx2⟩) hxn)
  have hdecomp : Permutation.get_cycle_decomposition p = some new := by
    unfold Permutation.get_cycle_decomposition
    rw [pySetList_of_valid h]
    rw [hres]
    simp
  refine ⟨new, hdecomp, ?_, ?_, ?_⟩
  · intro c hc
    obtain ⟨O, _, hP⟩ := forall₂_mem_left hfa c hc
    exact hP.1
  · intro hid
    cases horbs : orbs with
    | nil =>
      rw [horbs] at hfa
      cases hfa
      rfl
    | cons O orbs' =>
      rw [horbs] at hmov
      obtain ⟨x, hxO, hxmoved⟩ := hmov O (List.mem_cons_self _ _)
      have hb := (horb O (horbs ▸ List.mem_cons_self _ _) x hxO).1
      exact absurd (is_identity_permFun h hid x hb.1 hb.2) hxmoved
  · have hq0 : (Permutation.identity p.numLetters).permutation =
        (List.range' 1 p.numLetters).map
          (fun i => (i, if i ∈ ([] : List Nat)
            then Permutation.permFun p i else i)) := by
      unfold Permutation.identity
      apply List.map_congr_left
      intro i _
      simp
    obtain ⟨r, hr, hrperm⟩ := foldlM_mul_cycles h new orbs [] _ hfa
      (fun O hO x hx => ⟨(horb O hO x hx).1, (horb O hO x hx).2.1,
        List.not_mem_nil x⟩)
      hpw hq0
    refine ⟨r, hr, ?_⟩
    have hrfinal : r.permutation = (List.range' 1 p.numLetters).map
        (fun i => (i, Permutation.permFun p i)) := by
      rw [hrperm]
      apply List.map_congr_left
      intro i hi
      have hi' := List.mem_range'_1.mp hi
      by_cases hifl : i ∈ ([] : List Nat) ++ orbs.flatten
      · rw [if_pos hifl]
      · rw [if_neg hifl]
        by_cases hmoved : Permutation.permFun p i = i
        · rw [hmoved]
        · obtain ⟨O, hO, hiO⟩ := hcov i hi hmoved
          exact absurd (List.mem_append.mpr
            (Or.inr (List.mem_flatten.mpr ⟨O, hO, hiO⟩))) hifl
    unfold Permutation.pyEqB pyDictEq
    rw [Bool.and_eq_true]
    constructor
    · rw [List.all_eq_true]
      intro q hq
      rw [hrfinal] at hq
      obtain ⟨i, hi, hiq⟩ := List.mem_map.mp hq
      have hi' := List.mem_range'_1.mp hi
      rw [← hiq]
      rw [beq_iff_eq]
      exact h.get_eq_permFun hi'.1 hi'.2
    · rw [List.all_eq_true]
      intro q hq
      have hkmem : q.1 ∈ dictKeys p.permutation :=
        List.mem_map.mpr ⟨q, hq, rfl⟩
      have hk' := h.mem_keys_iff.mp hkmem
      have hgetv : dictGet p.permutation q.1 = some q.2 :=
        dictGet_of_nodup_mem h.keys_nodup hq
      have hgetσ : dictGet p.permutation q.1 =
          some (Permutation.permFun p q.1) := h.get_eq_permFun hk'.1 hk'.2
      have hvq : q.2 = Permutation.permFun p q.1 :=
        Option.some.inj (hgetv.symm.trans hgetσ)
      rw [hrfinal, dictGet_map_pairs,
        if_pos (List.mem_range'_1.mpr ⟨hk'.1, hk'.2⟩), beq_iff_eq, hvq]

/-- Witness for C5 at a concrete valid permutation. -/
theorem C5_witness :
    ∃ cycles, Permutation.get_cycle_decomposition
        ⟨[(1, 2), (2, 1), (3, 5), (5, 4), (4, 3)]⟩ = some cycles ∧
      (∀ c ∈ cycles, c.numLetters =
        (⟨[(1, 2), (2, 1), (3, 5), (5, 4), (4, 3)]⟩ : Permutation).numLetters) ∧
      (Permutation.is_identity ⟨[(1, 2), (2, 1), (3, 5), (5, 4), (4, 3)]⟩ = true →
        cycles = []) ∧
      ∃ q, cycles.foldlM (fun a c => Permutation.mul a c)
          (Permutation.identity
            (⟨[(1, 2), (2, 1), (3, 5), (5, 4), (4, 3)]⟩ : Permutation).numLetters) =
          some q ∧
        Permutation.pyEqB q ⟨[(1, 2), (2, 1), (3, 5), (5, 4), (4, 3)]⟩ = true :=
  C5_cycle_decomposition_roundtrip ⟨[(1, 2), (2, 1), (3, 5), (5, 4), (4, 3)]⟩
    (by decide)

/-! ### Claim C8: cycle notation refines the spec's description -/

theorem orbitAux_eq {p : Permutation} (h : p.IsValid) {k d : Nat}
    (hk1 : 1 ≤ k) (hk2 : k < 1 + p.numLetters)
    (hper : (Permutation.permFun p)^[d] k = k)
    (hdist : ∀ i j, i < j → j < d →
      (Permutation.permFun p)^[i] k ≠ (Permutation.permFun p)^[j] k) :
    ∀ fuel j, j < d → d - j ≤ fuel →
      orbitAux (Permutation.permFun p) k ((Permutation.permFun p)^[j] k) fuel =
        (List.range' j (d - j)).map (fun i => (Permutation.permFun p)^[i] k) := by
  intro fuel
  induction fuel with
  | zero =>
    intro j hj hfuel
    omega
  | succ fuel ih =>
    intro j hjd hfuel
    have hstep : Permutation.permFun p ((Permutation.permFun p)^[j] k) =
        (Permutation.permFun p)^[j+1] k :=
      (Function.iterate_succ_apply' _ j k).symm
    simp only [orbitAux]
    rw [hstep]
    by_cases hjd1 : j + 1 = d
    · rw [if_pos (by rw [hjd1]; exact hper)]
      rw [show d - j = 1 by omega]
      rfl
    · rw [if_neg (by
        have hne := hdist 0 (j+1) (by omega) (by omega)
        simpa using fun hc => hne hc.symm)]
      rw [ih (j+1) (by omega) (by omega)]
      rw [show d - j = (d - (j+1)) + 1 by omega, List.range'_succ]
      rfl

theorem cycleNotationAux_cons_mem {p : Permutation} {k : Nat} {ks upd : List Nat}
    {acc : List String} {C : Dict}
    (hk : k ∈ upd) (hfc : Permutation.find_cycle_dict p k = some C) :
    cycleNotationAux p (k :: ks) upd acc =
      cycleNotationAux p ks (upd.filter (fun x => !((dictKeys C).contains x)))
        (if C.length > 1 then acc ++ [renderCycleDict C] else acc) := by
  simp only [cycleNotationAux]
  rw [if_pos (show upd.contains k = true by simpa using hk), hfc]

theorem cycleNotationAux_cons_not_mem {p : Permutation} {k : Nat}
    {ks upd : List Nat} {acc : List String} (hk : k ∉ upd) :
    cycleNotationAux p (k :: ks) upd acc = cycleNotationAux p ks upd acc := by
  simp only [cycleNotationAux]
  rw [if_neg (show ¬(upd.contains k = true) by simpa using hk)]

theorem specDiscover_cons_mem {f : Nat → Nat} {n k : Nat} {ks covered : List Nat}
    (hk : k ∈ covered) :
    specDiscover f n (k :: ks) covered = specDiscover f n ks covered := by
  simp only [specDiscover]
  rw [if_pos (show covered.contains k = true by simpa using hk)]

theorem specDiscover_cons_not_mem {f : Nat → Nat} {n k : Nat}
    {ks covered : List Nat} (hk : k ∉ covered) :
    specDiscover f n (k :: ks) covered =
      specOrbit f n k :: specDiscover f n ks (covered ++ specOrbit f n k) := by
  simp only [specDiscover]
  rw [if_neg (show ¬(covered.contains k = true) by simpa using hk)]

theorem cycleNotationAux_spec {p : Permutation} (h : p.IsValid) :
    ∀ (ks upd covered : List Nat) (acc : List String),
      (∀ x ∈ ks, 1 ≤ x ∧ x < 1 + p.numLetters) →
      (∀ x, 1 ≤ x → x < 1 + p.numLetters → (x ∈ upd ↔ x ∉ covered)) →
      cycleNotationAux p ks upd acc =
        some (acc ++ (((specDiscover (Permutation.permFun p) p.numLetters
          ks covered).filter (fun c => c.length > 1)).map renderCycleL)) := by
  intro ks
  induction ks with
  | nil =>
    intro upd covered acc hkb hinv
    simp [cycleNotationAux, specDiscover]
  | cons k ks ih =>
    intro upd covered acc hkb hinv
    have hk1 := (hkb k (List.mem_cons_self _ _)).1
    have hk2 := (hkb k (List.mem_cons_self _ _)).2
    by_cases hkupd : k ∈ upd
    · have hknc : k ∉ covered := (hinv k hk1 hk2).mp hkupd
      obtain ⟨C, d, hfc, hd0, hdn, hClen, hper, hdist, hCkeys, hCnd, hkC, hCb,
        hCclose, hCget, hCreach, hCreachin, hCiff, hCmoved⟩ := cycle_facts h hk1 hk2
      have hOeq : specOrbit (Permutation.permFun p) p.numLetters k = dictKeys C := by
        unfold specOrbit
        have hoa := orbitAux_eq h hk1 hk2 hper hdist (p.numLetters + 1) 0
          hd0 (by omega)
        rw [show (Permutation.permFun p)^[0] k = k from rfl] at hoa
        rw [hoa, hCkeys, List.range_eq_range']
        simp
      have hlenEq : (specOrbit (Permutation.permFun p) p.numLetters k).length =
          C.length := by
        rw [hOeq]
        exact List.length_map _ _
      have hupd'mem : ∀ x, x ∈ upd.filter (fun x => !((dictKeys C).contains x)) ↔
          x ∈ upd ∧ x ∉ dictKeys C := by
        intro x
        rw [List.mem_filter]
        constructor
        · rintro ⟨h1, h2⟩
          refine ⟨h1, ?_⟩
          intro hc
          have hcont : (dictKeys C).contains x = true := by simpa using hc
          rw [hcont] at h2
          simp at h2
        · rintro ⟨h1, h2⟩
          exact ⟨h1, by simpa using h2⟩
      have hinv' : ∀ x, 1 ≤ x → x < 1 + p.numLetters →
          (x ∈ upd.filter (fun x => !((dictKeys C).contains x)) ↔
            x ∉ covered ++ specOrbit (Permutation.permFun p) p.numLetters k) := by
        intro x hx1 hx2
        rw [hupd'mem, hinv x hx1 hx2, hOeq, List.mem_append]
        constructor
        · rintro ⟨h1, h2⟩ (hc | hc)
          · exact h1 hc
          · exact h2 hc
        · intro hc
          exact ⟨fun hc1 => hc (Or.inl hc1), fun hc2 => hc (Or.inr hc2)⟩
      have hkbt : ∀ x ∈ ks, 1 ≤ x ∧ x < 1 + p.numLetters :=
        fun x hx => hkb x (List.mem_cons_of_mem _ hx)
      rw [cycleNotationAux_cons_mem hkupd hfc, specDiscover_cons_not_mem hknc]
      by_cases hlen : C.length > 1
      · rw [if_pos hlen]
        rw [ih (upd.filter (fun x => !((dictKeys C).contains x)))
          (covered ++ specOrbit (Permutation.permFun p) p.numLetters k)
          (acc ++ [renderCycleDict C]) hkbt hinv']
        rw [List.filter_cons_of_pos (by
          show decide ((specOrbit (Permutation.permFun p) p.numLetters k).length > 1) = true
          rw [hlenEq]
          simpa using hlen)]
        rw [List.map_cons]
        rw [show renderCycleL (specOrbit (Permutation.permFun p) p.numLetters k) =
          renderCycleDict C from by rw [hOeq]; rfl]
        rw [List.append_assoc]
        rfl
      · rw [if_neg hlen]
        rw [ih (upd.filter (fun x => !((dictKeys C).contains x)))
          (covered ++ specOrbit (Permutation.permFun p) p.numLetters k)
          acc hkbt hinv']
        rw [List.filter_cons_of_neg (by
          show ¬(decide ((specOrbit (Permutation.permFun p) p.numLetters k).length > 1) = true)
          rw [hlenEq]
          simpa using hlen)]
    · have hkcov : k ∈ covered := by
        by_contra hkc
        exact hkupd ((hinv k hk1 hk2).mpr hkc)
      rw [cycleNotationAux_cons_not_mem hkupd, specDiscover_cons_mem hkcov]
      exact ih upd covered acc (fun x hx => hkb x (List.mem_cons_of_mem _ hx)) hinv

/-- C8: the identity renders as the literal "1"; any other valid
permutation's cycle notation is exactly the spec's description
(`cycleNotationSpec`): the non-trivial cycles discovered by ascending scan,
each rendered as a parenthesized space-separated traversal, concatenated in
reverse discovery order; and {1:2, 2:3, 3:1, 4:4} renders as "(1 2 3)". -/
theorem C8_cycle_rendering :
    (∀ p : Permutation, Permutation.is_identity p = true →
      Permutation.get_cycle_notation p = some "1") ∧
    (∀ p : Permutation, p.IsValid → Permutation.is_identity p = false →
      Permutation.get_cycle_notation p =
        some (cycleNotationSpec (Permutation.permFun p) p.numLetters)) ∧
    Permutation.get_cycle_notation (Permutation.init [(1, 2), (2, 3), (3, 1), (4, 4)]) =
      some "(1 2 3)" := by
  refine ⟨?_, ?_, by rfl⟩
  · intro p hid
    unfold Permutation.get_cycle_notation
    rw [if_pos hid]
  · intro p h hid
    unfold Permutation.get_cycle_notation
    rw [if_neg (by simp [hid])]
    rw [pySetList_of_valid h]
    show (match cycleNotationAux p (List.range' 1 p.numLetters)
        (List.range' 1 p.numLetters) [] with
      | none => none
      | some cs => some (String.join cs.reverse)) =
      some (cycleNotationSpec (Permutation.permFun p) p.numLetters)
    rw [cycleNotationAux_spec h (List.range' 1 p.numLetters)
      (List.range' 1 p.numLetters) [] []
      (fun x hx => List.mem_range'_1.mp hx)
      (fun x hx1 hx2 => by
        constructor
        · intro _ hc
          exact absurd hc (List.not_mem_nil x)
        · intro _
          exact List.mem_range'_1.mpr ⟨hx1, hx2⟩)]
    simp [cycleNotationSpec]

/-- Witness for C8 at concrete permutations. -/
theorem C8_witness :
    Permutation.get_cycle_notation ⟨[(1, 1), (2, 2)]⟩ = some "1" ∧
    Permutation.get_cycle_notation ⟨[(1, 2), (2, 1), (3, 3)]⟩ =
      some (cycleNotationSpec (Permutation.permFun ⟨[(1, 2), (2, 1), (3, 3)]⟩)
        (⟨[(1, 2), (2, 1), (3, 3)]⟩ : Permutation).numLetters) :=
  ⟨C8_cycle_rendering.1 ⟨[(1, 1), (2, 2)]⟩ (by decide),
   C8_cycle_rendering.2.1 ⟨[(1, 2), (2, 1), (3, 3)]⟩ (by decide) (by decide)⟩

end Noether
